import Mathlib

/-!
Verification of the constraint-tracking and guess-selection engine of the
`wordler` repository (`wordler.py` and `sim.py`).

The Python sources are shallowly embedded as executable Lean definitions:
words and feedback patterns are lists of characters, the solver's mutable
instance fields become a `KnowledgeState` record threaded through the
functions, and Python dictionaries keyed by letters become a function
together with an explicit key list (mirroring `dict.items()` iteration).
-/

namespace Wordler

/-- A word: an ordered sequence of letters. -/
abbrev Word := List Char

/-- A feedback pattern over the alphabet `'g'` (EXACT), `'y'` (PRESENT),
`'-'` (ABSENT), as produced by `WordleSolver._get_pattern`. -/
abbrev Pattern := List Char

/-! ## PatternEncoder: `WordleSolver._get_pattern`

The Python code runs two passes over index range `[0, word_length)`:
pass 1 marks `'g'` where `guess[i] == answer[i]` and sets
`used_in_answer[i]`; pass 2, for each position still `'-'`, scans for the
first unused answer index holding `guess[i]`, marks `'y'` and consumes it.
-/

/-- Pass 1 of `_get_pattern`: `'g'` where the letters agree, `'-'` elsewhere. -/
def pass1 (guess answer : Word) : Pattern :=
  List.zipWith (fun gc ac => if gc = ac then 'g' else '-') guess answer

/-- The `used_in_answer` array as it stands after pass 1. -/
def initUsed (guess answer : Word) : List Bool :=
  List.zipWith (fun gc ac => decide (gc = ac)) guess answer

/-- The inner loop of pass 2: the first index `j` with
`not used_in_answer[j] and guess[i] == answer[j]`. -/
def findUnused : List Char → List Bool → Char → Option Nat
  | [], _, _ => none
  | _ :: _, [], _ => none
  | a :: as, u :: us, c =>
    if u = false ∧ a = c then some 0 else (findUnused as us c).map (· + 1)

/-- Pass 2 of `_get_pattern`, threading the `used_in_answer` array.  The
first component pairs pass 1's mark with the guess letter at each position. -/
def pass2 (answer : Word) : List (Char × Char) → List Bool → Pattern × List Bool
  | [], used => ([], used)
  | (p, gc) :: rest, used =>
    if p = '-' then
      match findUnused answer used gc with
      | some j =>
        let r := pass2 answer rest (used.set j true)
        ('y' :: r.1, r.2)
      | none =>
        let r := pass2 answer rest used
        ('-' :: r.1, r.2)
    else
      let r := pass2 answer rest used
      (p :: r.1, r.2)

/-- `WordleSolver._get_pattern(guess, answer)`. -/
def getPattern (guess answer : Word) : Pattern :=
  (pass2 answer ((pass1 guess answer).zip guess) (initUsed guess answer)).1

example : getPattern ['c','r','a','n','e'] ['s','l','a','t','e'] =
    ['-','-','g','-','g'] := by decide

example : getPattern ['s','p','e','e','d'] ['e','r','a','s','e'] =
    ['y','-','y','y','-'] := by decide

/-! ## KnowledgeState

The solver's mutable fields `green_pattern`, `yellow_misplaced`,
`letter_min_counts`, `letter_max_counts`, `greys`.  Python dictionaries and
counters are embedded as a total function (with the container's default
value for absent keys) together with the explicit key list, so that
`dict.items()` iteration in the source maps to iteration over the key list. -/

structure KnowledgeState where
  greenPattern : List Char
  yellowKeys : List Char
  yellowPos : Char → List Nat
  minKeys : List Char
  minCount : Char → Nat
  maxKeys : List Char
  maxCount : Char → Nat
  greys : List Char

/-- The state built by `WordleSolver.__init__` for word length `L`. -/
def initState (L : Nat) : KnowledgeState where
  greenPattern := List.replicate L '-'
  yellowKeys := []
  yellowPos := fun _ => []
  minKeys := []
  minCount := fun _ => 0
  maxKeys := []
  maxCount := fun _ => 0
  greys := []

/-- Set/dict-key insertion: a no-op when the element is already present. -/
def insertIfNew [DecidableEq α] (x : α) (l : List α) : List α :=
  if x ∈ l then l else l ++ [x]

/-- The first loop of `_update_knowledge`: per-position marks.  The list
pairs each guess letter with its feedback mark; `i` is the running index. -/
def phase1 (s : KnowledgeState) : List (Char × Char) → Nat → KnowledgeState
  | [], _ => s
  | (c, r) :: rest, i =>
    let s' :=
      if r = 'g' then { s with greenPattern := s.greenPattern.set i c }
      else if r = 'y' then
        { s with
          yellowKeys := insertIfNew c s.yellowKeys
          yellowPos := fun x =>
            if x = c then insertIfNew i (s.yellowPos c) else s.yellowPos x }
      else s
    phase1 s' rest (i + 1)

/-- `sum(1 for i, c in enumerate(guess) if c == char and results[i] == m)`. -/
def markCount (guess : Word) (results : Pattern) (c m : Char) : Nat :=
  (guess.zip results).countP (fun q => decide (q.1 = c ∧ q.2 = m))

/-- The body of the second loop of `_update_knowledge` for one letter `c`
of the guess: recompute the aggregate counts. -/
def updateLetter (guess : Word) (results : Pattern) (c : Char) (s : KnowledgeState) :
    KnowledgeState :=
  let gc := markCount guess results c 'g'
  let yc := markCount guess results c 'y'
  let grc := markCount guess results c '-'
  let mc := gc + yc
  let s1 := { s with
    minKeys := insertIfNew c s.minKeys
    minCount := fun x => if x = c then max (s.minCount c) mc else s.minCount x }
  let s2 :=
    if 0 < grc then
      { s1 with
        maxKeys := insertIfNew c s1.maxKeys
        maxCount := fun x => if x = c then mc else s1.maxCount x }
    else s1
  if gc = 0 ∧ yc = 0 then { s2 with greys := insertIfNew c s2.greys } else s2

/-- The second loop of `_update_knowledge`: per-letter aggregate counts,
iterated over the distinct letters of the guess (`Counter(guess)` keys). -/
def phase2 (guess : Word) (results : Pattern) : List Char → KnowledgeState → KnowledgeState
  | [], s => s
  | c :: cs, s => phase2 guess results cs (updateLetter guess results c s)

/-- `WordleSolver._update_knowledge(guess, results)`. -/
def update (s : KnowledgeState) (guess : Word) (results : Pattern) : KnowledgeState :=
  phase2 guess results guess.dedup (phase1 s (guess.zip results) 0)

/-! ## CandidateFilter: `WordleSolver._filter_words` -/

/-- `re.match` of the green pattern (with `'-'` read as the wildcard `'.'`)
against a word, for patterns made of letters and dashes: the word is at
least as long as the pattern and agrees with it at every non-dash position. -/
def greenMatch (gp : List Char) (w : Word) : Bool :=
  decide (gp.length ≤ w.length) &&
    (gp.zip w).all (fun q => decide (q.1 = '-') || decide (q.1 = q.2))

/-- The per-word test of `_filter_words` (each `continue`/`break` chain
becomes one conjunct).  Out-of-range yellow positions — which the Python
code never produces for length-matched guesses — test as non-matching. -/
def wordOk (s : KnowledgeState) (w : Word) : Bool :=
  greenMatch s.greenPattern w &&
  !(w.any (fun c => s.greys.contains c)) &&
  s.minKeys.all (fun c => decide (s.minCount c ≤ w.count c)) &&
  s.maxKeys.all (fun c => decide (w.count c = s.maxCount c)) &&
  s.yellowKeys.all (fun c => !((s.yellowPos c).any (fun p => decide (w[p]? = some c))))

/-- `WordleSolver._filter_words`, as a function of the incoming word list. -/
def filterWords (s : KnowledgeState) (words : List Word) : List Word :=
  words.filter (wordOk s)

/-! ## HardModeValidator: `WordleSolver._is_valid_hard_mode_guess` -/

def isValidHardModeGuess (s : KnowledgeState) (guess : Word) : Bool :=
  s.greenPattern.enum.all
    (fun p => decide (p.2 = '-') || decide (guess[p.1]? = some p.2)) &&
  s.yellowKeys.all (fun c => guess.contains c)

/-! ## GuessSelector, frequency strategy: `find_best_guess_frequency` -/

/-- `letter_frequency[c]`: each word contributes at most once per letter,
so the count is the number of possible words containing `c`. -/
def letterFrequency (possible : List Word) (c : Char) : Nat :=
  possible.countP (fun w => w.contains c)

/-- `score = sum(letter_frequency[letter] for letter in set(word))`. -/
def freqScore (possible : List Word) (w : Word) : Nat :=
  (w.dedup.map (letterFrequency possible)).sum

/-- The selection loop: strict improvement over the running maximum,
starting from `best_word, max_score = "", -1`. -/
def freqFold (possible : List Word) : List Word → Word → Int → Word
  | [], best, _ => best
  | w :: rest, best, maxScore =>
    if maxScore < (freqScore possible w : Int) then
      freqFold possible rest w (freqScore possible w)
    else freqFold possible rest best maxScore

def findBestGuessFrequency (possible : List Word) : Option Word :=
  match possible with
  | [] => none
  | [w] => some w
  | _ => some (freqFold possible possible [] (-1))

/-! ## GuessSelector, minimax strategy: `find_best_guess_minimax` -/

/-- `max(pattern_counts.values())`: the size of the largest bucket of the
partition of the answers by their feedback pattern. -/
def maxBucket (pats : List Pattern) : Nat :=
  (pats.map (fun p => pats.count p)).foldr max 0

/-- The worst-case remaining-candidate count of a guess. -/
def worstCase (possible : List Word) (guess : Word) : Nat :=
  maxBucket (possible.map (fun ans => getPattern guess ans))

/-- The minimax selection loop.  `none` plays the role of the initial
`float('inf')`; guesses of the wrong length are skipped; ties prefer a
guess that is itself a surviving candidate. -/
def mmFold (possible : List Word) (L : Nat) :
    List Word → Word → Option Nat → Word × Option Nat
  | [], best, m => (best, m)
  | g :: rest, best, m =>
    if g.length ≠ L then mmFold possible L rest best m
    else
      let mr := worstCase possible g
      match m with
      | none => mmFold possible L rest g (some mr)
      | some mv =>
        if mr < mv then mmFold possible L rest g (some mr)
        else if mr = mv ∧ g ∈ possible ∧ best ∉ possible then
          mmFold possible L rest g (some mv)
        else mmFold possible L rest best (some mv)

def findBestGuessMinimax (possible allWords : List Word) (L : Nat) : Option Word :=
  match possible with
  | [] => none
  | [w] => some w
  | _ =>
    let pool := if 2 < possible.length then allWords else possible
    some (mmFold possible L pool [] none).1

/-! ## Honest sessions

A session in which every feedback is the encoder's own pattern of the
guess against one fixed secret word. -/

def honestUpdate (secret : Word) (s : KnowledgeState) (g : Word) : KnowledgeState :=
  update s g (getPattern g secret)

/-- The knowledge state after honestly playing the guesses `gs` in order. -/
def runStates (L : Nat) (secret : Word) (gs : List Word) : KnowledgeState :=
  gs.foldl (honestUpdate secret) (initState L)

/-- One honest round of the interactive loop: update, then filter the
running candidate list. -/
def runRound (secret : Word) (sw : KnowledgeState × List Word) (g : Word) :
    KnowledgeState × List Word :=
  let s' := honestUpdate secret sw.1 g
  (s', filterWords s' sw.2)

/-- State and incrementally filtered candidate list after honestly playing
the guesses `gs`, starting from the length-filtered dictionary `start`. -/
def runGame (L : Nat) (secret : Word) (start : List Word) (gs : List Word) :
    KnowledgeState × List Word :=
  gs.foldl (runRound secret) (initState L, start)

/-! ## The simulator's encoder: `sim.check_guess` -/

/-- The three emoji marks of `sim.py`. -/
inductive SimMark
  | green
  | yellow
  | grey
deriving DecidableEq, Repr

/-- `list.remove(c)`: drop the first occurrence of `Some c`. -/
def removeFirst : List (Option Char) → Char → List (Option Char)
  | [], _ => []
  | x :: xs, c => if x = some c then xs else x :: removeFirst xs c

/-- First pass of `check_guess`: green marks, and the `secret_letters`
list with matched slots overwritten by `None`. -/
def simPass1 (guess secret : Word) : List (Option SimMark) × List (Option Char) :=
  (List.zipWith (fun gc sc => if gc = sc then some SimMark.green else none) guess secret,
   List.zipWith (fun gc sc => if gc = sc then (none : Option Char) else some sc) guess secret)

/-- Second pass of `check_guess`: for each still-empty slot, a yellow mark
when the letter remains in `secret_letters`, consuming its first occurrence. -/
def simPass2 :
    List (Option SimMark) → Word → List (Option Char) →
      List (Option SimMark) × List (Option Char)
  | [], _, sl => ([], sl)
  | m :: ms, [], sl => (m :: ms, sl)
  | m :: ms, c :: cs, sl =>
    match m with
    | none =>
      if some c ∈ sl then
        let r := simPass2 ms cs (removeFirst sl c)
        (some SimMark.yellow :: r.1, r.2)
      else
        let r := simPass2 ms cs sl
        (none :: r.1, r.2)
    | some mk =>
      let r := simPass2 ms cs sl
      (some mk :: r.1, r.2)

/-- `sim.check_guess(guess, secret_word)`: the remaining empty slots become
grey in the third pass. -/
def checkGuess (guess secret : Word) : List SimMark :=
  let p1 := simPass1 guess secret
  ((simPass2 p1.1 guess p1.2).1).map (fun m => m.getD SimMark.grey)

/-- The renaming of C10: green square to `'g'`, yellow square to `'y'`,
white square to `'-'`. -/
def simMarkChar : SimMark → Char
  | SimMark.green => 'g'
  | SimMark.yellow => 'y'
  | SimMark.grey => '-'

example : (checkGuess ['s','p','e','e','d'] ['e','r','a','s','e']).map simMarkChar =
    ['y','-','y','y','-'] := by decide

/-! ## Generic list helpers -/

lemma countP_map_snd_zip (l : List ((α × β))) (m : List γ) (p : β × γ → Bool) :
    ((l.map Prod.snd).zip m).countP p = (l.zip m).countP (fun q => p (q.1.2, q.2)) := by
  induction l generalizing m with
  | nil => simp
  | cons x xs ih =>
    cases m with
    | nil => simp [List.zip]
    | cons y ys => simp [List.zip_cons_cons, List.countP_cons, ih]

lemma getElem?_set_true_false {l : List Bool} {k j : Nat}
    (h : (l.set k true)[j]? = some false) : l[j]? = some false := by
  rcases eq_or_ne k j with rfl | hne
  · rw [List.getElem?_set_self'] at h
    cases hl : l[k]? with
    | none => rw [hl] at h; simp at h
    | some b => rw [hl] at h; simp at h
  · rwa [List.getElem?_set_ne hne] at h

/-! ## Structural lemmas about the encoder's second pass -/

lemma pass2_fst_length (a : Word) :
    ∀ (prs : List (Char × Char)) (used : List Bool),
      (pass2 a prs used).1.length = prs.length := by
  intro prs
  induction prs with
  | nil => intro used; simp [pass2]
  | cons q rest ih =>
    intro used
    obtain ⟨p, gc⟩ := q
    by_cases hp : p = '-'
    · subst hp
      cases hfu : findUnused a used gc with
      | some j => simp [pass2, hfu, ih]
      | none => simp [pass2, hfu, ih]
    · simp [pass2, hp, ih]

lemma pass2_snd_length (a : Word) :
    ∀ (prs : List (Char × Char)) (used : List Bool),
      (pass2 a prs used).2.length = used.length := by
  intro prs
  induction prs with
  | nil => intro used; simp [pass2]
  | cons q rest ih =>
    intro used
    obtain ⟨p, gc⟩ := q
    by_cases hp : p = '-'
    · subst hp
      cases hfu : findUnused a used gc with
      | some j => simp [pass2, hfu, ih]
      | none => simp [pass2, hfu, ih]
    · simp [pass2, hp, ih]

lemma pass2_getElem?_of_mark (a : Word) :
    ∀ (prs : List (Char × Char)) (used : List Bool) (i : Nat) (p gc : Char),
      prs[i]? = some (p, gc) → p ≠ '-' →
      (pass2 a prs used).1[i]? = some p := by
  intro prs
  induction prs with
  | nil => intro used i p gc h; simp at h
  | cons q rest ih =>
    intro used i p gc h hp
    obtain ⟨p', gc'⟩ := q
    cases i with
    | zero =>
      simp at h
      obtain ⟨rfl, rfl⟩ := h
      simp [pass2, hp]
    | succ n =>
      simp at h
      by_cases hp' : p' = '-'
      · subst hp'
        cases hfu : findUnused a used gc' with
        | some j => simpa [pass2, hfu] using ih _ n p gc h hp
        | none => simpa [pass2, hfu] using ih _ n p gc h hp
      · simpa [pass2, hp'] using ih _ n p gc h hp

lemma pass2_getElem?_rev (a : Word) :
    ∀ (prs : List (Char × Char)) (used : List Bool) (i : Nat) (m : Char),
      (pass2 a prs used).1[i]? = some m →
      m = 'y' ∨ m = '-' ∨ ∃ q, prs[i]? = some q ∧ m = q.1 := by
  intro prs
  induction prs with
  | nil => intro used i m h; simp [pass2] at h
  | cons q rest ih =>
    intro used i m h
    obtain ⟨p, gc⟩ := q
    by_cases hp : p = '-'
    · subst hp
      cases hfu : findUnused a used gc with
      | some j =>
        simp only [pass2, hfu] at h
        cases i with
        | zero => simp at h; left; exact h.symm
        | succ n =>
          simp at h
          rcases ih _ n m h with h' | h' | ⟨q, hq, hm⟩
          · left; exact h'
          · right; left; exact h'
          · right; right; exact ⟨q, by simpa using hq, hm⟩
      | none =>
        simp only [pass2, hfu] at h
        cases i with
        | zero => simp at h; right; left; exact h.symm
        | succ n =>
          simp at h
          rcases ih _ n m h with h' | h' | ⟨q, hq, hm⟩
          · left; exact h'
          · right; left; exact h'
          · right; right; exact ⟨q, by simpa using hq, hm⟩
    · simp only [pass2, hp, if_false, reduceIte] at h
      cases i with
      | zero =>
        simp at h
        right; right; exact ⟨(p, gc), by simp, h.symm⟩
      | succ n =>
        simp at h
        rcases ih _ n m h with h' | h' | ⟨q, hq, hm⟩
        · left; exact h'
        · right; left; exact h'
        · right; right; exact ⟨q, by simpa using hq, hm⟩

/-- There is an unused slot of the answer holding the letter `c`. -/
def freeFor (a : Word) (used : List Bool) (c : Char) : Prop :=
  ∃ j : Nat, a[j]? = some c ∧ used[j]? = some false

lemma findUnused_some (a : Word) :
    ∀ (used : List Bool) (c : Char) (j : Nat), findUnused a used c = some j →
      a[j]? = some c ∧ used[j]? = some false := by
  induction a with
  | nil => intro used c j h; simp [findUnused] at h
  | cons x xs ih =>
    intro used c j h
    cases used with
    | nil => simp [findUnused] at h
    | cons u us =>
      by_cases hc : u = false ∧ x = c
      · simp only [findUnused, hc, if_true] at h
        obtain rfl : (0 : Nat) = j := by simpa using h
        simpa using ⟨hc.2, hc.1⟩
      · simp only [findUnused, hc, if_false] at h
        cases hfu : findUnused xs us c with
        | none => rw [hfu] at h; simp at h
        | some j' =>
          rw [hfu] at h
          simp only [Option.map_some'] at h
          obtain rfl : j' + 1 = j := by simpa using h
          obtain ⟨h1, h2⟩ := ih us c j' hfu
          simpa using ⟨h1, h2⟩

lemma findUnused_isSome (a : Word) :
    ∀ (used : List Bool) (c : Char) (j : Nat),
      a[j]? = some c → used[j]? = some false →
      (findUnused a used c).isSome := by
  induction a with
  | nil => intro used c j h; simp at h
  | cons x xs ih =>
    intro used c j ha hu
    cases used with
    | nil => simp at hu
    | cons u us =>
      by_cases hc : u = false ∧ x = c
      · simp [findUnused, hc]
      · cases j with
        | zero =>
          simp at ha hu
          exact absurd ⟨hu, ha⟩ hc
        | succ n =>
          simp at ha hu
          have h := ih us c n ha hu
          simp only [findUnused, hc, if_false]
          cases hfu : findUnused xs us c with
          | none => rw [hfu] at h; simp at h
          | some j' => simp

lemma pass2_used_false (a : Word) :
    ∀ (prs : List (Char × Char)) (used : List Bool) (j : Nat),
      (pass2 a prs used).2[j]? = some false → used[j]? = some false := by
  intro prs
  induction prs with
  | nil => intro used j h; simpa [pass2] using h
  | cons q rest ih =>
    intro used j h
    obtain ⟨p, gc⟩ := q
    by_cases hp : p = '-'
    · subst hp
      cases hfu : findUnused a used gc with
      | some k =>
        simp only [pass2, hfu, if_true, reduceIte] at h
        have h' : (used.set k true)[j]? = some false := ih (used.set k true) j h
        exact getElem?_set_true_false h'
      | none =>
        simp only [pass2, hfu, if_true, reduceIte] at h
        exact ih _ j h
    · simp only [pass2, hp, if_false, reduceIte] at h
      exact ih _ j h

lemma pass2_not_free (a : Word) :
    ∀ (prs : List (Char × Char)) (used : List Bool) (c : Char),
      ¬ freeFor a used c → ¬ freeFor a (pass2 a prs used).2 c := by
  intro prs used c h hfree
  obtain ⟨j, haj, huj⟩ := hfree
  exact h ⟨j, haj, pass2_used_false a prs used j huj⟩

/-- If a position comes out ABSENT, then at the end of pass 2 no unused
occurrence of its guess letter remains in the answer. -/
lemma pass2_dash_not_free (a : Word) :
    ∀ (prs : List (Char × Char)) (used : List Bool) (i : Nat) (c : Char),
      (pass2 a prs used).1[i]? = some '-' →
      prs[i]? = some ('-', c) →
      ¬ freeFor a (pass2 a prs used).2 c := by
  intro prs
  induction prs with
  | nil => intro used i c h; simp [pass2] at h
  | cons q rest ih =>
    intro used i c hout hprs
    obtain ⟨p, gc⟩ := q
    cases i with
    | zero =>
      simp at hprs
      obtain ⟨hp0, hgc0⟩ := hprs
      subst hp0
      subst hgc0
      cases hfu : findUnused a used gc with
      | some j => simp [pass2, hfu] at hout
      | none =>
        simp only [pass2, hfu, if_true, reduceIte]
        rintro ⟨j, haj, huj⟩
        have huj' : used[j]? = some false := pass2_used_false a rest used j huj
        have hs := findUnused_isSome a used gc j haj huj'
        rw [hfu] at hs
        simp at hs
    | succ n =>
      simp at hprs
      by_cases hp : p = '-'
      · subst hp
        cases hfu : findUnused a used gc with
        | some j =>
          simp only [pass2, hfu, if_true, reduceIte] at hout ⊢
          simp at hout
          exact ih _ n c hout hprs
        | none =>
          simp only [pass2, hfu, if_true, reduceIte] at hout ⊢
          simp at hout
          exact ih _ n c hout hprs
      · simp only [pass2, hp, if_false, reduceIte] at hout ⊢
        simp at hout
        exact ih _ n c hout hprs

/-- Number of already-consumed slots of the answer holding `c`. -/
def usedCount (a : Word) (used : List Bool) (c : Char) : Nat :=
  (a.zip used).countP (fun q => decide (q.1 = c ∧ q.2 = true))

/-- Number of PRESENT marks whose guess letter is `c`, over the paired
pass-2 input and output. -/
def yellowsFor (prs : List (Char × Char)) (out : Pattern) (c : Char) : Nat :=
  (prs.zip out).countP (fun q => decide (q.1.2 = c ∧ q.2 = 'y'))

lemma usedCount_set (c : Char) (a : Word) :
    ∀ (used : List Bool) (j : Nat) (gc : Char),
      a[j]? = some gc → used[j]? = some false →
      usedCount a (used.set j true) c =
        usedCount a used c + (if gc = c then 1 else 0) := by
  induction a with
  | nil => intro used j gc ha _; simp at ha
  | cons x xs ih =>
    intro used j gc ha hu
    cases used with
    | nil => simp at hu
    | cons u us =>
      cases j with
      | zero =>
        simp at ha hu
        subst hu
        simp only [List.set_cons_zero, usedCount, List.zip_cons_cons, List.countP_cons]
        rw [← ha]
        by_cases hx : x = c <;> simp [hx]
      | succ n =>
        simp at ha hu
        have h' := ih us n gc ha hu
        simp only [usedCount] at h'
        simp only [List.set_cons_succ, usedCount, List.zip_cons_cons, List.countP_cons]
        omega

lemma usedCount_all (c : Char) (a : Word) :
    ∀ (used : List Bool), used.length = a.length →
      (∀ j : Nat, a[j]? = some c → used[j]? = some true) →
      usedCount a used c = a.count c := by
  induction a with
  | nil => intro used _ _; simp [usedCount]
  | cons x xs ih =>
    intro used hlen hall
    cases used with
    | nil => simp at hlen
    | cons u us =>
      simp at hlen
      have htail := ih us hlen (fun j hj => by simpa using hall (j + 1) (by simpa using hj))
      simp only [usedCount, List.zip_cons_cons, List.countP_cons, List.count_cons]
      simp only [usedCount] at htail
      rw [htail]
      by_cases hx : x = c
      · have hu : u = true := by simpa using hall 0 (by simp [hx])
        subst hu
        simp [hx]
      · simp [hx]

lemma pass2_usedCount (a : Word) (c : Char) :
    ∀ (prs : List (Char × Char)) (used : List Bool),
      (∀ q ∈ prs, q.1 ≠ 'y') →
      usedCount a (pass2 a prs used).2 c =
        usedCount a used c + yellowsFor prs (pass2 a prs used).1 c := by
  intro prs
  induction prs with
  | nil => intro used _; simp [pass2, yellowsFor]
  | cons q rest ih =>
    intro used hq
    obtain ⟨p, gc⟩ := q
    have hrest : ∀ q ∈ rest, q.1 ≠ 'y' := fun q hq' => hq q (List.mem_cons_of_mem _ hq')
    by_cases hp : p = '-'
    · subst hp
      cases hfu : findUnused a used gc with
      | some j =>
        obtain ⟨haj, huj⟩ := findUnused_some a used gc j hfu
        simp only [pass2, hfu, if_true, reduceIte]
        rw [ih (used.set j true) hrest, usedCount_set c a used j gc haj huj]
        simp only [yellowsFor, List.zip_cons_cons, List.countP_cons]
        by_cases hgc : gc = c <;> simp [hgc] <;> omega
      | none =>
        simp only [pass2, hfu, if_true, reduceIte]
        rw [ih used hrest]
        simp [yellowsFor, List.zip_cons_cons, List.countP_cons]
    · have hpy : p ≠ 'y' := hq (p, gc) (List.mem_cons_self _ _)
      simp only [pass2, hp, if_false, reduceIte]
      rw [ih used hrest]
      simp [yellowsFor, List.zip_cons_cons, List.countP_cons, hpy]

/-! ## Relating pass 1 and the mark counts of the final pattern -/

lemma pass1_marks (g : Word) :
    ∀ (a : Word) (q : Char × Char), q ∈ (pass1 g a).zip g → q.1 = 'g' ∨ q.1 = '-' := by
  induction g with
  | nil => intro a q hq; simp [pass1] at hq
  | cons x xs ih =>
    intro a q hq
    cases a with
    | nil => simp [pass1] at hq
    | cons y ys =>
      simp only [pass1, List.zipWith_cons_cons, List.zip_cons_cons, List.mem_cons] at hq
      rcases hq with rfl | hq
      · by_cases hxy : x = y <;> simp [hxy]
      · exact ih ys q hq

lemma pass1_not_yellow (g a : Word) :
    ∀ q ∈ (pass1 g a).zip g, q.1 ≠ 'y' := by
  intro q hq
  rcases pass1_marks g a q hq with h | h <;> simp [h]

lemma pass1_length (g a : Word) : (pass1 g a).length = min g.length a.length := by
  simp [pass1]

lemma initUsed_length (g a : Word) : (initUsed g a).length = min g.length a.length := by
  simp [initUsed]

lemma getPattern_length (g a : Word) :
    (getPattern g a).length = min g.length a.length := by
  rw [getPattern, pass2_fst_length]
  simp [pass1_length]

lemma markCount_eq_prs (g a : Word) (h : g.length = a.length) (c m : Char) (out : Pattern) :
    markCount g out c m =
      (((pass1 g a).zip g).zip out).countP (fun q => decide (q.1.2 = c ∧ q.2 = m)) := by
  have hmap : ((pass1 g a).zip g).map Prod.snd = g := by
    apply List.map_snd_zip
    simp [pass1_length]
    omega
  conv_lhs => rw [markCount, ← hmap]
  rw [countP_map_snd_zip]

lemma markCount_y_eq_yellowsFor (g a : Word) (h : g.length = a.length) (c : Char) :
    markCount g (getPattern g a) c 'y' =
      yellowsFor ((pass1 g a).zip g) (getPattern g a) c :=
  markCount_eq_prs g a h c 'y' (getPattern g a)

lemma pass2_greens (a : Word) (c : Char) :
    ∀ (prs : List (Char × Char)) (used : List Bool),
      (∀ q ∈ prs, q.1 = 'g' ∨ q.1 = '-') →
      (prs.zip (pass2 a prs used).1).countP (fun q => decide (q.1.2 = c ∧ q.2 = 'g')) =
        prs.countP (fun q => decide (q.1 = 'g' ∧ q.2 = c)) := by
  intro prs
  induction prs with
  | nil => intro used _; simp [pass2]
  | cons q rest ih =>
    intro used hq
    obtain ⟨p, gc⟩ := q
    have hrest : ∀ q ∈ rest, q.1 = 'g' ∨ q.1 = '-' :=
      fun q hq' => hq q (List.mem_cons_of_mem _ hq')
    by_cases hp : p = '-'
    · subst hp
      cases hfu : findUnused a used gc with
      | some j =>
        simp only [pass2, hfu, if_true, reduceIte, List.zip_cons_cons, List.countP_cons]
        rw [ih (used.set j true) hrest]
        simp
      | none =>
        simp only [pass2, hfu, if_true, reduceIte, List.zip_cons_cons, List.countP_cons]
        rw [ih used hrest]
        simp
    · have hpg : p = 'g' := by
        rcases hq (p, gc) (List.mem_cons_self _ _) with h | h
        · exact h
        · exact absurd h hp
      subst hpg
      simp only [pass2, hp, if_false, reduceIte, List.zip_cons_cons, List.countP_cons]
      rw [ih used hrest]
      by_cases hgc : gc = c <;> simp [hgc]

lemma usedCount_init (c : Char) (g : Word) :
    ∀ (a : Word),
      usedCount a (initUsed g a) c =
        ((pass1 g a).zip g).countP (fun q => decide (q.1 = 'g' ∧ q.2 = c)) := by
  induction g with
  | nil => intro a; simp [usedCount, initUsed, pass1]
  | cons x xs ih =>
    intro a
    cases a with
    | nil => simp [usedCount, initUsed, pass1]
    | cons y ys =>
      simp only [usedCount, initUsed, pass1, List.zipWith_cons_cons, List.zip_cons_cons,
        List.countP_cons]
      have htail := ih ys
      simp only [usedCount, initUsed, pass1] at htail
      rw [htail]
      by_cases hxy : x = y
      · subst hxy
        by_cases hx : x = c <;> simp [hx]
      · by_cases hy : y = c <;> simp [hxy, hy]

lemma markCount_g_eq_usedCount (g a : Word) (h : g.length = a.length) (c : Char) :
    markCount g (getPattern g a) c 'g' = usedCount a (initUsed g a) c := by
  rw [markCount_eq_prs g a h c 'g' (getPattern g a), usedCount_init]
  exact pass2_greens a c _ _ (pass1_marks g a)

/-! ## The four key facts about the encoder -/

/-- An EXACT mark at a position means guess and answer agree there. -/
lemma getPattern_green (g a : Word) {i : Nat} {x : Char}
    (hg : (getPattern g a)[i]? = some 'g') (hx : g[i]? = some x) :
    a[i]? = some x := by
  rcases pass2_getElem?_rev a _ _ i 'g' hg with h | h | ⟨q, hq, hm⟩
  · exact absurd h (by decide)
  · exact absurd h (by decide)
  · obtain ⟨h1, h2⟩ := List.getElem?_zip_eq_some.mp hq
    rw [← hm] at h1
    rw [pass1] at h1
    obtain ⟨u, v, hu, hv, huv⟩ := List.getElem?_zipWith_eq_some.mp h1
    by_cases huv' : u = v
    · subst huv'
      rw [hu] at hx
      obtain rfl : u = x := by simpa using hx
      exact hv
    · rw [if_neg huv'] at huv
      exact absurd huv (by decide)

lemma pass2_yellow_mem (a : Word) :
    ∀ (prs : List (Char × Char)) (used : List Bool) (i : Nat),
      (∀ q ∈ prs, q.1 ≠ 'y') →
      (pass2 a prs used).1[i]? = some 'y' →
      ∃ gc, prs[i]? = some ('-', gc) ∧ gc ∈ a := by
  intro prs
  induction prs with
  | nil => intro used i _ h; simp [pass2] at h
  | cons q rest ih =>
    intro used i hq hout
    obtain ⟨p, gc⟩ := q
    have hrest : ∀ q ∈ rest, q.1 ≠ 'y' := fun q hq' => hq q (List.mem_cons_of_mem _ hq')
    by_cases hp : p = '-'
    · subst hp
      cases hfu : findUnused a used gc with
      | some j =>
        simp only [pass2, hfu, if_true, reduceIte] at hout
        cases i with
        | zero =>
          refine ⟨gc, by simp, ?_⟩
          exact List.getElem?_mem (findUnused_some a used gc j hfu).1
        | succ n =>
          simp at hout
          obtain ⟨gc', h1, h2⟩ := ih (used.set j true) n hrest hout
          exact ⟨gc', by simpa using h1, h2⟩
      | none =>
        simp only [pass2, hfu, if_true, reduceIte] at hout
        cases i with
        | zero => simp at hout
        | succ n =>
          simp at hout
          obtain ⟨gc', h1, h2⟩ := ih used n hrest hout
          exact ⟨gc', by simpa using h1, h2⟩
    · simp only [pass2, hp, if_false, reduceIte] at hout
      cases i with
      | zero =>
        simp at hout
        exact absurd hout (hq (p, gc) (List.mem_cons_self _ _))
      | succ n =>
        simp at hout
        obtain ⟨gc', h1, h2⟩ := ih used n hrest hout
        exact ⟨gc', by simpa using h1, h2⟩

/-- A PRESENT mark at a position means the guess letter occurs in the answer. -/
lemma getPattern_yellow_mem (g a : Word) {i : Nat}
    (hy : (getPattern g a)[i]? = some 'y') :
    ∃ gc, g[i]? = some gc ∧ gc ∈ a := by
  obtain ⟨gc, hq, hmem⟩ := pass2_yellow_mem a _ _ i (pass1_not_yellow g a) hy
  obtain ⟨_, h2⟩ := List.getElem?_zip_eq_some.mp hq
  exact ⟨gc, h2, hmem⟩

/-- Helper: locating the pass-2 input pair above a position of the output. -/
lemma getPattern_prs_at (g a : Word) (h : g.length = a.length) {i : Nat} {x : Char}
    (hx : g[i]? = some x) :
    ∃ p, ((pass1 g a).zip g)[i]? = some (p, x) ∧ (p = 'g' ∨ p = '-') := by
  have hip : i < g.length := by
    by_contra hlt
    rw [List.getElem?_eq_none (by omega)] at hx
    exact Option.noConfusion hx
  have hp1 : i < (pass1 g a).length := by rw [pass1_length]; omega
  obtain ⟨p, hp⟩ : ∃ p, (pass1 g a)[i]? = some p := by
    rw [List.getElem?_eq_getElem hp1]
    exact ⟨_, rfl⟩
  refine ⟨p, List.getElem?_zip_eq_some.mpr ⟨hp, hx⟩, ?_⟩
  exact pass1_marks g a (p, x) (List.getElem?_mem (List.getElem?_zip_eq_some.mpr ⟨hp, hx⟩))

/-- A letter of the guess with neither EXACT nor PRESENT marks does not
occur in the answer at all. -/
lemma getPattern_absent_not_mem (g a : Word) (h : g.length = a.length) (c : Char)
    (hcg : c ∈ g)
    (hg0 : markCount g (getPattern g a) c 'g' = 0)
    (hy0 : markCount g (getPattern g a) c 'y' = 0) : c ∉ a := by
  obtain ⟨i, hi⟩ := List.mem_iff_getElem?.mp hcg
  have hip : i < g.length := by
    by_contra hlt
    rw [List.getElem?_eq_none (by omega)] at hi
    exact Option.noConfusion hi
  have hol : i < (getPattern g a).length := by rw [getPattern_length]; omega
  obtain ⟨m, hm⟩ : ∃ m, (getPattern g a)[i]? = some m := by
    rw [List.getElem?_eq_getElem hol]
    exact ⟨_, rfl⟩
  have hpairmem : (c, m) ∈ g.zip (getPattern g a) :=
    List.getElem?_mem (List.getElem?_zip_eq_some.mpr ⟨hi, hm⟩)
  have hmg : m ≠ 'g' := by
    rintro rfl
    have : 0 < markCount g (getPattern g a) c 'g' :=
      List.countP_pos_iff.mpr ⟨(c, 'g'), hpairmem, by simp⟩
    omega
  have hmy : m ≠ 'y' := by
    rintro rfl
    have : 0 < markCount g (getPattern g a) c 'y' :=
      List.countP_pos_iff.mpr ⟨(c, 'y'), hpairmem, by simp⟩
    omega
  obtain ⟨p, hprs, hpm⟩ := getPattern_prs_at g a h hi
  have hpd : p = '-' := by
    rcases hpm with rfl | rfl
    · have := pass2_getElem?_of_mark a _ (initUsed g a) i 'g' c hprs (by decide)
      rw [getPattern] at hm
      rw [this] at hm
      exact absurd (by simpa using hm.symm) hmg
    · rfl
  subst hpd
  have hmd : m = '-' := by
    rw [getPattern] at hm
    rcases pass2_getElem?_rev a _ _ i m hm with h' | h' | ⟨q, hq, hm'⟩
    · exact absurd h' hmy
    · exact h'
    · rw [hprs] at hq
      obtain rfl : q = ('-', c) := by simpa using hq.symm
      exact hm'
  subst hmd
  have hnofree : ¬ freeFor a (pass2 a ((pass1 g a).zip g) (initUsed g a)).2 c := by
    apply pass2_dash_not_free a _ _ i c _ hprs
    rw [getPattern] at hm
    exact hm
  have husedzero :
      usedCount a (pass2 a ((pass1 g a).zip g) (initUsed g a)).2 c = 0 := by
    rw [pass2_usedCount a c _ _ (pass1_not_yellow g a)]
    have h1 : usedCount a (initUsed g a) c = 0 := by
      rw [← markCount_g_eq_usedCount g a h c]
      exact hg0
    have h2 : yellowsFor ((pass1 g a).zip g)
        (pass2 a ((pass1 g a).zip g) (initUsed g a)).1 c = 0 := by
      show yellowsFor ((pass1 g a).zip g) (getPattern g a) c = 0
      rw [← markCount_y_eq_yellowsFor g a h c]
      exact hy0
    omega
  intro hca
  obtain ⟨j, hj⟩ := List.mem_iff_getElem?.mp hca
  have hja : j < a.length := by
    by_contra hlt
    rw [List.getElem?_eq_none (by omega)] at hj
    exact Option.noConfusion hj
  have hjf : j < (pass2 a ((pass1 g a).zip g) (initUsed g a)).2.length := by
    rw [pass2_snd_length, initUsed_length]
    omega
  obtain ⟨b, hb⟩ : ∃ b, (pass2 a ((pass1 g a).zip g) (initUsed g a)).2[j]? = some b := by
    rw [List.getElem?_eq_getElem hjf]
    exact ⟨_, rfl⟩
  cases b with
  | false => exact hnofree ⟨j, hj, hb⟩
  | true =>
    have : 0 < usedCount a (pass2 a ((pass1 g a).zip g) (initUsed g a)).2 c := by
      apply List.countP_pos_iff.mpr
      exact ⟨(c, true), List.getElem?_mem (List.getElem?_zip_eq_some.mpr ⟨hj, hb⟩), by simp⟩
    omega

/-- A letter of the guess with at least one ABSENT mark has exactly as many
EXACT-plus-PRESENT marks as it has occurrences in the answer. -/
lemma getPattern_grey_exact (g a : Word) (h : g.length = a.length) (c : Char)
    (hgr : 0 < markCount g (getPattern g a) c '-') :
    markCount g (getPattern g a) c 'g' + markCount g (getPattern g a) c 'y' =
      a.count c := by
  obtain ⟨q, hqmem, hqp⟩ := List.countP_pos_iff.mp hgr
  obtain ⟨i, hiq⟩ := List.mem_iff_getElem?.mp hqmem
  obtain ⟨hq1, hq2⟩ : q.1 = c ∧ q.2 = '-' := by simpa using hqp
  obtain ⟨hgi, houti⟩ := List.getElem?_zip_eq_some.mp hiq
  rw [hq1] at hgi
  rw [hq2] at houti
  obtain ⟨p, hprs, hpm⟩ := getPattern_prs_at g a h hgi
  have hpd : p = '-' := by
    rcases hpm with rfl | rfl
    · have hgm := pass2_getElem?_of_mark a _ (initUsed g a) i 'g' c hprs (by decide)
      rw [getPattern] at houti
      rw [hgm] at houti
      exact absurd houti (by decide)
    · rfl
  subst hpd
  have hnofree : ¬ freeFor a (pass2 a ((pass1 g a).zip g) (initUsed g a)).2 c := by
    apply pass2_dash_not_free a _ _ i c _ hprs
    rw [getPattern] at houti
    exact houti
  have hall : ∀ j : Nat, a[j]? = some c →
      (pass2 a ((pass1 g a).zip g) (initUsed g a)).2[j]? = some true := by
    intro j hj
    have hja : j < a.length := by
      by_contra hlt
      rw [List.getElem?_eq_none (by omega)] at hj
      exact Option.noConfusion hj
    have hjf : j < (pass2 a ((pass1 g a).zip g) (initUsed g a)).2.length := by
      rw [pass2_snd_length, initUsed_length]
      omega
    obtain ⟨b, hb⟩ : ∃ b, (pass2 a ((pass1 g a).zip g) (initUsed g a)).2[j]? = some b := by
      rw [List.getElem?_eq_getElem hjf]
      exact ⟨_, rfl⟩
    cases b with
    | false => exact absurd ⟨j, hj, hb⟩ hnofree
    | true => exact hb
  have hlenf : (pass2 a ((pass1 g a).zip g) (initUsed g a)).2.length = a.length := by
    rw [pass2_snd_length, initUsed_length]
    omega
  have hcnt := usedCount_all c a _ hlenf hall
  rw [pass2_usedCount a c _ _ (pass1_not_yellow g a)] at hcnt
  rw [markCount_g_eq_usedCount g a h c, markCount_y_eq_yellowsFor g a h c]
  rw [← hcnt]
  rfl

/-! ## Mark counts for C7 -/

lemma pass2_marks_mem (a : Word) (prs : List (Char × Char)) (used : List Bool) (m : Char)
    (hm : m ∈ (pass2 a prs used).1) (hq : ∀ q ∈ prs, q.1 = 'g' ∨ q.1 = '-') :
    m = 'g' ∨ m = 'y' ∨ m = '-' := by
  obtain ⟨i, hi⟩ := List.mem_iff_getElem?.mp hm
  rcases pass2_getElem?_rev a prs used i m hi with h | h | ⟨q, hq', hme⟩
  · right; left; exact h
  · right; right; exact h
  · rcases hq q (List.getElem?_mem hq') with h | h
    · left; rw [hme, h]
    · right; right; rw [hme, h]

lemma count_three_partition (l : List Char)
    (h : ∀ m ∈ l, m = 'g' ∨ m = 'y' ∨ m = '-') :
    l.count 'g' + l.count 'y' + l.count '-' = l.length := by
  induction l with
  | nil => simp
  | cons x xs ih =>
    have hx := h x (List.mem_cons_self _ _)
    have ht := ih (fun m hm => h m (List.mem_cons_of_mem _ hm))
    rcases hx with rfl | rfl | rfl <;> (simp [List.count_cons]; omega)

lemma pass2_count_green (a : Word) :
    ∀ (prs : List (Char × Char)) (used : List Bool),
      (pass2 a prs used).1.count 'g' = prs.countP (fun q => decide (q.1 = 'g')) := by
  intro prs
  induction prs with
  | nil => intro used; simp [pass2]
  | cons q rest ih =>
    intro used
    obtain ⟨p, gc⟩ := q
    by_cases hp : p = '-'
    · subst hp
      cases hfu : findUnused a used gc with
      | some j =>
        simp only [pass2, hfu, if_true, reduceIte, List.count_cons, List.countP_cons]
        rw [ih]
        simp
      | none =>
        simp only [pass2, hfu, if_true, reduceIte, List.count_cons, List.countP_cons]
        rw [ih]
        simp
    · simp only [pass2, hp, if_false, reduceIte, List.count_cons, List.countP_cons]
      rw [ih]
      by_cases hpg : p = 'g' <;> simp [hpg]

lemma pass1_zip_countg (g : Word) :
    ∀ (a : Word), ((pass1 g a).zip g).countP (fun q => decide (q.1 = 'g')) =
      (g.zip a).countP (fun q => decide (q.1 = q.2)) := by
  induction g with
  | nil => intro a; simp [pass1]
  | cons x xs ih =>
    intro a
    cases a with
    | nil => simp [pass1]
    | cons y ys =>
      simp only [pass1, List.zipWith_cons_cons, List.zip_cons_cons, List.countP_cons]
      have ht := ih ys
      simp only [pass1] at ht
      rw [ht]
      by_cases hxy : x = y <;> simp [hxy]

/-- The EXACT marks of the final pattern are exactly the agreeing positions. -/
lemma getPattern_count_green (g a : Word) :
    (getPattern g a).count 'g' = (g.zip a).countP (fun q => decide (q.1 = q.2)) := by
  rw [getPattern, pass2_count_green, pass1_zip_countg]

/-! ## Characterizing the first update loop (`phase1`) -/

lemma mem_insertIfNew [DecidableEq α] (x y : α) (l : List α) :
    y ∈ insertIfNew x l ↔ y = x ∨ y ∈ l := by
  unfold insertIfNew
  by_cases h : x ∈ l
  · simp only [h, if_true, reduceIte]
    constructor
    · exact fun hy => Or.inr hy
    · rintro (rfl | hy)
      · exact h
      · exact hy
  · simp [h, or_comm]

/-- `phase1` leaves the aggregate-count fields untouched. -/
lemma phase1_fields :
    ∀ (prs : List (Char × Char)) (s : KnowledgeState) (i : Nat),
      (phase1 s prs i).minKeys = s.minKeys ∧
      (phase1 s prs i).minCount = s.minCount ∧
      (phase1 s prs i).maxKeys = s.maxKeys ∧
      (phase1 s prs i).maxCount = s.maxCount ∧
      (phase1 s prs i).greys = s.greys := by
  intro prs
  induction prs with
  | nil => intro s i; exact ⟨rfl, rfl, rfl, rfl, rfl⟩
  | cons q rest ih =>
    intro s i
    obtain ⟨c, r⟩ := q
    by_cases hg : r = 'g'
    · simp only [phase1, hg, if_true, reduceIte]
      exact ih _ (i + 1)
    · by_cases hy : r = 'y'
      · simp only [phase1, hg, hy, if_false, if_true, reduceIte]
        exact ih _ (i + 1)
      · simp only [phase1, hg, hy, if_false, reduceIte]
        exact ih _ (i + 1)

lemma phase1_green_length :
    ∀ (prs : List (Char × Char)) (s : KnowledgeState) (i : Nat),
      (phase1 s prs i).greenPattern.length = s.greenPattern.length := by
  intro prs
  induction prs with
  | nil => intro s i; rfl
  | cons q rest ih =>
    intro s i
    obtain ⟨c, r⟩ := q
    by_cases hg : r = 'g'
    · simp only [phase1, hg, if_true, reduceIte]
      rw [ih _ (i + 1)]
      simp
    · by_cases hy : r = 'y'
      · simp only [phase1, hg, hy, if_false, if_true, reduceIte]
        exact ih _ (i + 1)
      · simp only [phase1, hg, hy, if_false, reduceIte]
        exact ih _ (i + 1)

lemma phase1_green_lower :
    ∀ (prs : List (Char × Char)) (s : KnowledgeState) (i k : Nat), k < i →
      (phase1 s prs i).greenPattern[k]? = s.greenPattern[k]? := by
  intro prs
  induction prs with
  | nil => intro s i k _; rfl
  | cons q rest ih =>
    intro s i k hk
    obtain ⟨c, r⟩ := q
    by_cases hg : r = 'g'
    · simp only [phase1, hg, if_true, reduceIte]
      rw [ih _ (i + 1) k (by omega)]
      exact List.getElem?_set_ne (by omega)
    · by_cases hy : r = 'y'
      · simp only [phase1, hg, hy, if_false, if_true, reduceIte]
        exact ih _ (i + 1) k (by omega)
      · simp only [phase1, hg, hy, if_false, reduceIte]
        exact ih _ (i + 1) k (by omega)

lemma phase1_green_write :
    ∀ (prs : List (Char × Char)) (s : KnowledgeState) (i j : Nat) (c : Char),
      prs[j]? = some (c, 'g') → i + j < s.greenPattern.length →
      (phase1 s prs i).greenPattern[i + j]? = some c := by
  intro prs
  induction prs with
  | nil => intro s i j c h; simp at h
  | cons q rest ih =>
    intro s i j c hj hlt
    obtain ⟨c0, r0⟩ := q
    cases j with
    | zero =>
      simp at hj
      obtain ⟨rfl, rfl⟩ := hj
      simp only [phase1, if_true, reduceIte]
      rw [phase1_green_lower rest _ (i + 1) (i + 0) (by omega)]
      simp only [Nat.add_zero]
      exact List.getElem?_set_eq_of_lt c0 (by simpa using hlt)
    | succ n =>
      simp at hj
      by_cases hg : r0 = 'g'
      · simp only [phase1, hg, if_true, reduceIte]
        have : i + (n + 1) = (i + 1) + n := by omega
        rw [this]
        apply ih _ (i + 1) n c hj
        simp
        omega
      · by_cases hy : r0 = 'y'
        · simp only [phase1, hg, hy, if_false, if_true, reduceIte]
          have : i + (n + 1) = (i + 1) + n := by omega
          rw [this]
          exact ih _ (i + 1) n c hj (by simpa using (by omega : (i + 1) + n < s.greenPattern.length))
        · simp only [phase1, hg, hy, if_false, reduceIte]
          have : i + (n + 1) = (i + 1) + n := by omega
          rw [this]
          exact ih _ (i + 1) n c hj (by omega)

lemma phase1_green_rev :
    ∀ (prs : List (Char × Char)) (s : KnowledgeState) (i k : Nat),
      (phase1 s prs i).greenPattern[k]? = s.greenPattern[k]? ∨
      ∃ (j : Nat) (c : Char), prs[j]? = some (c, 'g') ∧ k = i + j ∧
        (phase1 s prs i).greenPattern[k]? = some c := by
  intro prs
  induction prs with
  | nil => intro s i k; left; rfl
  | cons q rest ih =>
    intro s i k
    obtain ⟨c0, r0⟩ := q
    by_cases hg : r0 = 'g'
    · subst hg
      simp only [phase1, if_true, reduceIte]
      rcases ih { s with greenPattern := s.greenPattern.set i c0 } (i + 1) k with
        h | ⟨j, c, hj, hk, hv⟩
      · by_cases hki : k = i
        · subst hki
          by_cases hlen : k < s.greenPattern.length
          · right
            refine ⟨0, c0, by simp, by omega, ?_⟩
            rw [h]
            exact List.getElem?_set_eq_of_lt c0 hlen
          · left
            rw [h]
            rw [List.getElem?_eq_none (l := s.greenPattern.set k c0) (by simpa using (by omega : s.greenPattern.length ≤ k)),
              List.getElem?_eq_none (by omega)]
        · left
          rw [h]
          exact List.getElem?_set_ne (fun hik => hki hik.symm)
      · right
        exact ⟨j + 1, c, by simpa using hj, by omega, hv⟩
    · by_cases hy : r0 = 'y'
      · simp only [phase1, hg, hy, if_false, if_true, reduceIte]
        rcases ih _ (i + 1) k with h | ⟨j, c, hj, hk, hv⟩
        · left; exact h
        · right; exact ⟨j + 1, c, by simpa using hj, by omega, hv⟩
      · simp only [phase1, hg, hy, if_false, reduceIte]
        rcases ih _ (i + 1) k with h | ⟨j, c, hj, hk, hv⟩
        · left; exact h
        · right; exact ⟨j + 1, c, by simpa using hj, by omega, hv⟩

lemma phase1_yellowKeys_mono :
    ∀ (prs : List (Char × Char)) (s : KnowledgeState) (i : Nat) (c : Char),
      c ∈ s.yellowKeys → c ∈ (phase1 s prs i).yellowKeys := by
  intro prs
  induction prs with
  | nil => intro s i c h; exact h
  | cons q rest ih =>
    intro s i c h
    obtain ⟨c0, r0⟩ := q
    by_cases hg : r0 = 'g'
    · simp only [phase1, hg, if_true, reduceIte]
      exact ih _ (i + 1) c h
    · by_cases hy : r0 = 'y'
      · simp only [phase1, hg, hy, if_false, if_true, reduceIte]
        exact ih _ (i + 1) c ((mem_insertIfNew c0 c _).mpr (Or.inr h))
      · simp only [phase1, hg, hy, if_false, reduceIte]
        exact ih _ (i + 1) c h

lemma phase1_yellowKeys_rev :
    ∀ (prs : List (Char × Char)) (s : KnowledgeState) (i : Nat) (c : Char),
      c ∈ (phase1 s prs i).yellowKeys →
      c ∈ s.yellowKeys ∨ ∃ j : Nat, prs[j]? = some (c, 'y') := by
  intro prs
  induction prs with
  | nil => intro s i c h; left; exact h
  | cons q rest ih =>
    intro s i c h
    obtain ⟨c0, r0⟩ := q
    by_cases hg : r0 = 'g'
    · simp only [phase1, hg, if_true, reduceIte] at h
      rcases ih _ (i + 1) c h with h' | ⟨j, hj⟩
      · left; exact h'
      · right; exact ⟨j + 1, by simpa using hj⟩
    · by_cases hy : r0 = 'y'
      · subst hy
        simp only [phase1, hg, if_false, if_true, reduceIte] at h
        rcases ih _ (i + 1) c h with h' | ⟨j, hj⟩
        · rcases (mem_insertIfNew c0 c _).mp h' with rfl | h''
          · right; exact ⟨0, by simp⟩
          · left; exact h''
        · right; exact ⟨j + 1, by simpa using hj⟩
      · simp only [phase1, hg, hy, if_false, reduceIte] at h
        rcases ih _ (i + 1) c h with h' | ⟨j, hj⟩
        · left; exact h'
        · right; exact ⟨j + 1, by simpa using hj⟩

lemma phase1_yellowKeys_write :
    ∀ (prs : List (Char × Char)) (s : KnowledgeState) (i : Nat) (j : Nat) (c : Char),
      prs[j]? = some (c, 'y') → c ∈ (phase1 s prs i).yellowKeys := by
  intro prs
  induction prs with
  | nil => intro s i j c h; simp at h
  | cons q rest ih =>
    intro s i j c hj
    obtain ⟨c0, r0⟩ := q
    cases j with
    | zero =>
      simp at hj
      obtain ⟨rfl, rfl⟩ := hj
      have h1 : ('y' : Char) ≠ 'g' := by decide
      simp only [phase1, h1, if_false, if_true, reduceIte]
      exact phase1_yellowKeys_mono rest _ (i + 1) c0
        ((mem_insertIfNew c0 c0 _).mpr (Or.inl rfl))
    | succ n =>
      simp at hj
      by_cases hg : r0 = 'g'
      · simp only [phase1, hg, if_true, reduceIte]
        exact ih _ (i + 1) n c hj
      · by_cases hy : r0 = 'y'
        · simp only [phase1, hg, hy, if_false, if_true, reduceIte]
          exact ih _ (i + 1) n c hj
        · simp only [phase1, hg, hy, if_false, reduceIte]
          exact ih _ (i + 1) n c hj

lemma phase1_yellowPos_mono :
    ∀ (prs : List (Char × Char)) (s : KnowledgeState) (i : Nat) (c : Char) (p : Nat),
      p ∈ s.yellowPos c → p ∈ (phase1 s prs i).yellowPos c := by
  intro prs
  induction prs with
  | nil => intro s i c p h; exact h
  | cons q rest ih =>
    intro s i c p h
    obtain ⟨c0, r0⟩ := q
    by_cases hg : r0 = 'g'
    · simp only [phase1, hg, if_true, reduceIte]
      exact ih _ (i + 1) c p h
    · by_cases hy : r0 = 'y'
      · simp only [phase1, hg, hy, if_false, if_true, reduceIte]
        apply ih _ (i + 1) c p
        show p ∈ (if c = c0 then insertIfNew i (s.yellowPos c0) else s.yellowPos c)
        by_cases hc : c = c0
        · rw [if_pos hc]
          subst hc
          exact (mem_insertIfNew i p _).mpr (Or.inr h)
        · rw [if_neg hc]
          exact h
      · simp only [phase1, hg, hy, if_false, reduceIte]
        exact ih _ (i + 1) c p h

/-! ## Characterizing the second update loop (`phase2`) -/

lemma updateLetter_green_yellow (g : Word) (r : Pattern) (c0 : Char) (s : KnowledgeState) :
    (updateLetter g r c0 s).greenPattern = s.greenPattern ∧
    (updateLetter g r c0 s).yellowKeys = s.yellowKeys ∧
    (updateLetter g r c0 s).yellowPos = s.yellowPos := by
  unfold updateLetter
  by_cases hgr : 0 < markCount g r c0 '-' <;>
    by_cases hgy : markCount g r c0 'g' = 0 ∧ markCount g r c0 'y' = 0 <;>
      simp [hgr, hgy]

lemma updateLetter_minCount (g : Word) (r : Pattern) (c0 : Char) (s : KnowledgeState)
    (c : Char) :
    (updateLetter g r c0 s).minCount c =
      if c = c0 then max (s.minCount c0) (markCount g r c0 'g' + markCount g r c0 'y')
      else s.minCount c := by
  unfold updateLetter
  by_cases hgr : 0 < markCount g r c0 '-' <;>
    by_cases hgy : markCount g r c0 'g' = 0 ∧ markCount g r c0 'y' = 0 <;>
      simp [hgr, hgy]

lemma updateLetter_minKeys (g : Word) (r : Pattern) (c0 : Char) (s : KnowledgeState)
    (c : Char) :
    (c ∈ (updateLetter g r c0 s).minKeys ↔ c = c0 ∨ c ∈ s.minKeys) := by
  unfold updateLetter
  by_cases hgr : 0 < markCount g r c0 '-' <;>
    by_cases hgy : markCount g r c0 'g' = 0 ∧ markCount g r c0 'y' = 0 <;>
      simp [hgr, hgy, mem_insertIfNew]

lemma updateLetter_maxCount (g : Word) (r : Pattern) (c0 : Char) (s : KnowledgeState)
    (c : Char) :
    (updateLetter g r c0 s).maxCount c =
      if c = c0 ∧ 0 < markCount g r c0 '-' then
        markCount g r c0 'g' + markCount g r c0 'y'
      else s.maxCount c := by
  unfold updateLetter
  by_cases hgr : 0 < markCount g r c0 '-' <;>
    by_cases hgy : markCount g r c0 'g' = 0 ∧ markCount g r c0 'y' = 0 <;>
      by_cases hc : c = c0 <;>
        simp [hgr, hgy, hc]

lemma updateLetter_maxKeys (g : Word) (r : Pattern) (c0 : Char) (s : KnowledgeState)
    (c : Char) :
    (c ∈ (updateLetter g r c0 s).maxKeys ↔
      (c = c0 ∧ 0 < markCount g r c0 '-') ∨ c ∈ s.maxKeys) := by
  unfold updateLetter
  by_cases hgr : 0 < markCount g r c0 '-' <;>
    by_cases hgy : markCount g r c0 'g' = 0 ∧ markCount g r c0 'y' = 0 <;>
      simp [hgr, hgy, mem_insertIfNew]

lemma updateLetter_greys (g : Word) (r : Pattern) (c0 : Char) (s : KnowledgeState)
    (c : Char) :
    (c ∈ (updateLetter g r c0 s).greys ↔
      (c = c0 ∧ markCount g r c0 'g' = 0 ∧ markCount g r c0 'y' = 0) ∨ c ∈ s.greys) := by
  unfold updateLetter
  by_cases hgr : 0 < markCount g r c0 '-' <;>
    by_cases hgy : markCount g r c0 'g' = 0 ∧ markCount g r c0 'y' = 0 <;>
      simp [hgr, hgy, mem_insertIfNew, and_assoc]

lemma phase2_green_yellow (g : Word) (r : Pattern) :
    ∀ (cs : List Char) (s : KnowledgeState),
      (phase2 g r cs s).greenPattern = s.greenPattern ∧
      (phase2 g r cs s).yellowKeys = s.yellowKeys ∧
      (phase2 g r cs s).yellowPos = s.yellowPos := by
  intro cs
  induction cs with
  | nil => intro s; exact ⟨rfl, rfl, rfl⟩
  | cons c0 cs ih =>
    intro s
    obtain ⟨h1, h2, h3⟩ := ih (updateLetter g r c0 s)
    obtain ⟨g1, g2, g3⟩ := updateLetter_green_yellow g r c0 s
    refine ⟨?_, ?_, ?_⟩
    · rw [phase2, h1, g1]
    · rw [phase2, h2, g2]
    · rw [phase2, h3, g3]

lemma phase2_minCount (g : Word) (r : Pattern) :
    ∀ (cs : List Char) (s : KnowledgeState) (c : Char),
      (phase2 g r cs s).minCount c =
        if c ∈ cs then max (s.minCount c) (markCount g r c 'g' + markCount g r c 'y')
        else s.minCount c := by
  intro cs
  induction cs with
  | nil => intro s c; simp [phase2]
  | cons c0 cs ih =>
    intro s c
    rw [phase2, ih (updateLetter g r c0 s) c]
    by_cases hc : c = c0
    · subst hc
      by_cases hcs : c ∈ cs
      · simp [hcs, updateLetter_minCount, Nat.max_assoc]
      · simp [hcs, updateLetter_minCount]
    · by_cases hcs : c ∈ cs
      · simp [hcs, hc, updateLetter_minCount]
      · simp [hcs, hc, updateLetter_minCount]

lemma phase2_minKeys (g : Word) (r : Pattern) :
    ∀ (cs : List Char) (s : KnowledgeState) (c : Char),
      (c ∈ (phase2 g r cs s).minKeys ↔ c ∈ cs ∨ c ∈ s.minKeys) := by
  intro cs
  induction cs with
  | nil => intro s c; simp [phase2]
  | cons c0 cs ih =>
    intro s c
    rw [phase2, ih (updateLetter g r c0 s) c]
    rw [updateLetter_minKeys]
    simp [or_comm, or_assoc]
    tauto

lemma phase2_maxCount (g : Word) (r : Pattern) :
    ∀ (cs : List Char) (s : KnowledgeState) (c : Char),
      (phase2 g r cs s).maxCount c =
        if c ∈ cs ∧ 0 < markCount g r c '-' then
          markCount g r c 'g' + markCount g r c 'y'
        else s.maxCount c := by
  intro cs
  induction cs with
  | nil => intro s c; simp [phase2]
  | cons c0 cs ih =>
    intro s c
    rw [phase2, ih (updateLetter g r c0 s) c]
    rw [updateLetter_maxCount]
    by_cases hc : c = c0 <;> by_cases hcs : c ∈ cs <;>
      by_cases hgr : 0 < markCount g r c '-' <;>
        simp_all

lemma phase2_maxKeys (g : Word) (r : Pattern) :
    ∀ (cs : List Char) (s : KnowledgeState) (c : Char),
      (c ∈ (phase2 g r cs s).maxKeys ↔
        (c ∈ cs ∧ 0 < markCount g r c '-') ∨ c ∈ s.maxKeys) := by
  intro cs
  induction cs with
  | nil => intro s c; simp [phase2]
  | cons c0 cs ih =>
    intro s c
    rw [phase2, ih (updateLetter g r c0 s) c]
    rw [updateLetter_maxKeys]
    by_cases hc : c = c0 <;> by_cases hcs : c ∈ cs <;>
      by_cases hgr : 0 < markCount g r c '-' <;>
        simp_all

lemma phase2_greys (g : Word) (r : Pattern) :
    ∀ (cs : List Char) (s : KnowledgeState) (c : Char),
      (c ∈ (phase2 g r cs s).greys ↔
        (c ∈ cs ∧ markCount g r c 'g' = 0 ∧ markCount g r c 'y' = 0) ∨ c ∈ s.greys) := by
  intro cs
  induction cs with
  | nil => intro s c; simp [phase2]
  | cons c0 cs ih =>
    intro s c
    rw [phase2, ih (updateLetter g r c0 s) c]
    rw [updateLetter_greys]
    by_cases hc : c = c0 <;> by_cases hcs : c ∈ cs <;> simp_all

/-! ## Characterizing a whole `update` -/

lemma update_green (s : KnowledgeState) (g : Word) (r : Pattern) :
    (update s g r).greenPattern = (phase1 s (g.zip r) 0).greenPattern :=
  (phase2_green_yellow g r g.dedup _).1

lemma update_yellowKeys (s : KnowledgeState) (g : Word) (r : Pattern) :
    (update s g r).yellowKeys = (phase1 s (g.zip r) 0).yellowKeys :=
  (phase2_green_yellow g r g.dedup _).2.1

lemma update_yellowPos (s : KnowledgeState) (g : Word) (r : Pattern) :
    (update s g r).yellowPos = (phase1 s (g.zip r) 0).yellowPos :=
  (phase2_green_yellow g r g.dedup _).2.2

lemma update_minCount (s : KnowledgeState) (g : Word) (r : Pattern) (c : Char) :
    (update s g r).minCount c =
      if c ∈ g then max (s.minCount c) (markCount g r c 'g' + markCount g r c 'y')
      else s.minCount c := by
  rw [update, phase2_minCount, (phase1_fields (g.zip r) s 0).2.1]
  simp [List.mem_dedup]

lemma update_minKeys (s : KnowledgeState) (g : Word) (r : Pattern) (c : Char) :
    c ∈ (update s g r).minKeys ↔ c ∈ g ∨ c ∈ s.minKeys := by
  rw [update, phase2_minKeys, (phase1_fields (g.zip r) s 0).1]
  simp [List.mem_dedup]

lemma update_maxCount (s : KnowledgeState) (g : Word) (r : Pattern) (c : Char) :
    (update s g r).maxCount c =
      if c ∈ g ∧ 0 < markCount g r c '-' then
        markCount g r c 'g' + markCount g r c 'y'
      else s.maxCount c := by
  rw [update, phase2_maxCount, (phase1_fields (g.zip r) s 0).2.2.2.1]
  simp [List.mem_dedup]

lemma update_maxKeys (s : KnowledgeState) (g : Word) (r : Pattern) (c : Char) :
    c ∈ (update s g r).maxKeys ↔
      (c ∈ g ∧ 0 < markCount g r c '-') ∨ c ∈ s.maxKeys := by
  rw [update, phase2_maxKeys, (phase1_fields (g.zip r) s 0).2.2.1]
  simp [List.mem_dedup]

lemma update_greys (s : KnowledgeState) (g : Word) (r : Pattern) (c : Char) :
    c ∈ (update s g r).greys ↔
      (c ∈ g ∧ markCount g r c 'g' = 0 ∧ markCount g r c 'y' = 0) ∨ c ∈ s.greys := by
  rw [update, phase2_greys, (phase1_fields (g.zip r) s 0).2.2.2.2]
  simp [List.mem_dedup]

lemma update_minCount_mono (s : KnowledgeState) (g : Word) (r : Pattern) (c : Char) :
    s.minCount c ≤ (update s g r).minCount c := by
  rw [update_minCount]
  split
  · exact Nat.le_max_left _ _
  · exact Nat.le_refl _

lemma markCount_pos_iff (g : Word) (r : Pattern) (c m : Char) :
    0 < markCount g r c m ↔ ∃ i : Nat, g[i]? = some c ∧ r[i]? = some m := by
  rw [markCount, List.countP_pos_iff]
  constructor
  · rintro ⟨q, hq, hp⟩
    obtain ⟨hq1, hq2⟩ : q.1 = c ∧ q.2 = m := by simpa using hp
    obtain ⟨i, hi⟩ := List.mem_iff_getElem?.mp hq
    obtain ⟨h1, h2⟩ := List.getElem?_zip_eq_some.mp hi
    exact ⟨i, by rw [← hq1]; exact h1, by rw [← hq2]; exact h2⟩
  · rintro ⟨i, h1, h2⟩
    exact ⟨(c, m), List.getElem?_mem (List.getElem?_zip_eq_some.mpr ⟨h1, h2⟩), by simp⟩

/-! ## The honest-session invariant -/

/-- What the knowledge state can look like after a sequence of updates in
which every feedback was produced by the solver's own encoder against one
fixed secret word. -/
structure Faithful (secret : Word) (s : KnowledgeState) : Prop where
  glen : s.greenPattern.length = secret.length
  gval : ∀ (i : Nat) (c : Char), s.greenPattern[i]? = some c → c ≠ '-' →
    secret[i]? = some c
  maxval : ∀ c ∈ s.maxKeys, s.maxCount c = secret.count c
  minsec : ∀ c : Char, 0 < s.minCount c → 0 < secret.count c
  greysec : ∀ c ∈ s.greys, secret.count c = 0
  yellowmin : ∀ c ∈ s.yellowKeys, 0 < s.minCount c
  minval : ∀ c : Char, 0 < s.minCount c →
    c ∈ s.yellowKeys ∨ ∃ i : Nat, s.greenPattern[i]? = some c

lemma faithful_init (secret : Word) (L : Nat) (hL : secret.length = L) :
    Faithful secret (initState L) := by
  constructor
  · simp [initState, hL]
  · intro i c h hc
    simp only [initState] at h
    rw [List.getElem?_replicate] at h
    by_cases hi : i < L
    · rw [if_pos hi] at h
      exact absurd (by simpa using h.symm) hc
    · rw [if_neg hi] at h
      exact Option.noConfusion h
  · intro c h; simp [initState] at h
  · intro c h; simp [initState] at h
  · intro c h; simp [initState] at h
  · intro c h; simp [initState] at h
  · intro c h; simp [initState] at h

/-- Under honest feedback, a previously set green cell keeps its value. -/
lemma update_green_preserve (secret g : Word) (s : KnowledgeState)
    (hF : Faithful secret s) {i : Nat} {c : Char}
    (hold : s.greenPattern[i]? = some c) (hc : c ≠ '-') :
    (update s g (getPattern g secret)).greenPattern[i]? = some c := by
  rw [update_green]
  rcases phase1_green_rev (g.zip (getPattern g secret)) s 0 i with h | ⟨j, c', hj, hk, hv⟩
  · rw [h]
    exact hold
  · have hij : i = j := by omega
    subst hij
    obtain ⟨h1, h2⟩ := List.getElem?_zip_eq_some.mp hj
    have hsec : secret[i]? = some c' := getPattern_green g secret h2 h1
    have hsec' : secret[i]? = some c := hF.gval i c hold hc
    have hcc : c' = c := by
      rw [hsec] at hsec'
      exact Option.some_inj.mp hsec'
    rw [hv, hcc]

/-- One honest update preserves the invariant. -/
lemma faithful_update (secret g : Word) (s : KnowledgeState)
    (hF : Faithful secret s) (hlen : g.length = secret.length)
    (hdash : '-' ∉ secret) :
    Faithful secret (update s g (getPattern g secret)) := by
  constructor
  · rw [update_green, phase1_green_length]
    exact hF.glen
  · intro i c h hc
    rw [update_green] at h
    rcases phase1_green_rev (g.zip (getPattern g secret)) s 0 i with h' | ⟨j, c', hj, hk, hv⟩
    · rw [h'] at h
      exact hF.gval i c h hc
    · have hij : i = j := by omega
      subst hij
      rw [hv] at h
      obtain rfl : c' = c := Option.some_inj.mp h
      obtain ⟨h1, h2⟩ := List.getElem?_zip_eq_some.mp hj
      exact getPattern_green g secret h2 h1
  · intro c hck
    rw [update_maxCount]
    by_cases hcond : c ∈ g ∧ 0 < markCount g (getPattern g secret) c '-'
    · rw [if_pos hcond]
      exact getPattern_grey_exact g secret hlen c hcond.2
    · rw [if_neg hcond]
      rcases (update_maxKeys s g _ c).mp hck with h | h
      · exact absurd h hcond
      · exact hF.maxval c h
  · intro c hpos
    rw [update_minCount] at hpos
    by_cases hcg : c ∈ g
    · rw [if_pos hcg] at hpos
      rcases lt_max_iff.mp hpos with h | h
      · exact hF.minsec c h
      · by_cases hgc : 0 < markCount g (getPattern g secret) c 'g'
        · obtain ⟨i, h1, h2⟩ := (markCount_pos_iff _ _ c 'g').mp hgc
          have := getPattern_green g secret h2 h1
          exact List.count_pos_iff.mpr (List.getElem?_mem this)
        · have hyc : 0 < markCount g (getPattern g secret) c 'y' := by omega
          obtain ⟨i, h1, h2⟩ := (markCount_pos_iff _ _ c 'y').mp hyc
          obtain ⟨gc', hg1, hg2⟩ := getPattern_yellow_mem g secret h2
          obtain rfl : gc' = c := by
            rw [h1] at hg1
            exact (Option.some_inj.mp hg1).symm
          exact List.count_pos_iff.mpr hg2
    · rw [if_neg hcg] at hpos
      exact hF.minsec c hpos
  · intro c hcg
    rcases (update_greys s g _ c).mp hcg with ⟨hmem, hg0, hy0⟩ | h
    · exact List.count_eq_zero.mpr (getPattern_absent_not_mem g secret hlen c hmem hg0 hy0)
    · exact hF.greysec c h
  · intro c hck
    rw [update_yellowKeys] at hck
    rcases phase1_yellowKeys_rev (g.zip (getPattern g secret)) s 0 c hck with h | ⟨j, hj⟩
    · exact lt_of_lt_of_le (hF.yellowmin c h) (update_minCount_mono s g _ c)
    · obtain ⟨h1, h2⟩ := List.getElem?_zip_eq_some.mp hj
      have hcg : c ∈ g := List.getElem?_mem h1
      have hyc : 0 < markCount g (getPattern g secret) c 'y' :=
        (markCount_pos_iff _ _ c 'y').mpr ⟨j, h1, h2⟩
      rw [update_minCount, if_pos hcg]
      have hsum : 0 < markCount g (getPattern g secret) c 'g' +
          markCount g (getPattern g secret) c 'y' := by omega
      exact lt_of_lt_of_le hsum (Nat.le_max_right _ _)
  · intro c hpos
    rw [update_minCount] at hpos
    by_cases hcg : c ∈ g
    · rw [if_pos hcg] at hpos
      rcases lt_max_iff.mp hpos with h | h
      · rcases hF.minval c h with hy | ⟨i, hgi⟩
        · left
          rw [update_yellowKeys]
          exact phase1_yellowKeys_mono _ s 0 c hy
        · right
          have hcs : 0 < secret.count c := hF.minsec c h
          have hcd : c ≠ '-' := fun hcd => hdash (hcd ▸ List.count_pos_iff.mp hcs)
          exact ⟨i, update_green_preserve secret g s hF hgi hcd⟩
      · by_cases hgc : 0 < markCount g (getPattern g secret) c 'g'
        · obtain ⟨i, h1, h2⟩ := (markCount_pos_iff _ _ c 'g').mp hgc
          right
          refine ⟨i, ?_⟩
          rw [update_green]
          have hilt : 0 + i < s.greenPattern.length := by
            have hig : i < g.length := by
              by_contra hnot
              rw [List.getElem?_eq_none (by omega)] at h1
              exact Option.noConfusion h1
            rw [hF.glen]
            omega
          have hw := phase1_green_write (g.zip (getPattern g secret)) s 0 i c
            (List.getElem?_zip_eq_some.mpr ⟨h1, h2⟩) hilt
          simpa using hw
        · have hyc : 0 < markCount g (getPattern g secret) c 'y' := by omega
          obtain ⟨i, h1, h2⟩ := (markCount_pos_iff _ _ c 'y').mp hyc
          left
          rw [update_yellowKeys]
          exact phase1_yellowKeys_write _ s 0 i c (List.getElem?_zip_eq_some.mpr ⟨h1, h2⟩)
    · rw [if_neg hcg] at hpos
      rcases hF.minval c hpos with hy | ⟨i, hgi⟩
      · left
        rw [update_yellowKeys]
        exact phase1_yellowKeys_mono _ s 0 c hy
      · right
        have hcs : 0 < secret.count c := hF.minsec c hpos
        have hcd : c ≠ '-' := fun hcd => hdash (hcd ▸ List.count_pos_iff.mp hcs)
        exact ⟨i, update_green_preserve secret g s hF hgi hcd⟩

/-- The invariant holds after honestly playing any sequence of guesses. -/
lemma faithful_runStates (secret : Word) (L : Nat) (gs : List Word)
    (hL : secret.length = L) (hdash : '-' ∉ secret)
    (hgs : ∀ g ∈ gs, g.length = L) :
    Faithful secret (runStates L secret gs) := by
  have aux : ∀ (l : List Word), (∀ g ∈ l, g.length = L) → ∀ (s : KnowledgeState),
      Faithful secret s → Faithful secret (l.foldl (honestUpdate secret) s) := by
    intro l
    induction l with
    | nil => intro _ s hs; exact hs
    | cons g gs ih =>
      intro hl s hs
      simp only [List.foldl_cons]
      exact ih (fun x hx => hl x (List.mem_cons_of_mem _ hx)) _
        (faithful_update secret g s hs
          (by rw [hl g (List.mem_cons_self _ _), hL]) hdash)
  exact aux gs hgs _ (faithful_init secret L hL)

/-! ## The filter as a conjunction of conditions -/

lemma greenMatch_iff (gp : List Char) (w : Word) :
    greenMatch gp w = true ↔
      gp.length ≤ w.length ∧
      ∀ (i : Nat) (c : Char), gp[i]? = some c → c ≠ '-' → w[i]? = some c := by
  rw [greenMatch, Bool.and_eq_true]
  constructor
  · rintro ⟨h1, h2⟩
    have h1' : gp.length ≤ w.length := by simpa using h1
    refine ⟨h1', ?_⟩
    intro i c hgi hc
    have hlt : i < gp.length := by
      by_contra h
      rw [List.getElem?_eq_none (by omega)] at hgi
      exact Option.noConfusion hgi
    have hlw : i < w.length := by omega
    obtain ⟨x, hx⟩ : ∃ x, w[i]? = some x := by
      rw [List.getElem?_eq_getElem hlw]
      exact ⟨_, rfl⟩
    have hmem : (c, x) ∈ gp.zip w :=
      List.getElem?_mem (List.getElem?_zip_eq_some.mpr ⟨hgi, hx⟩)
    have hpr := List.all_eq_true.mp h2 (c, x) hmem
    simp at hpr
    rcases hpr with h | h
    · exact absurd h hc
    · rw [hx, h]
  · rintro ⟨h1, h2⟩
    refine ⟨by simpa using h1, ?_⟩
    apply List.all_eq_true.mpr
    rintro ⟨p, x⟩ hq
    obtain ⟨i, hi⟩ := List.mem_iff_getElem?.mp hq
    obtain ⟨hgi, hwi⟩ := List.getElem?_zip_eq_some.mp hi
    by_cases hp : p = '-'
    · simp [hp]
    · have hsome := h2 i p hgi hp
      rw [hwi] at hsome
      obtain rfl : x = p := Option.some_inj.mp hsome
      simp

lemma contains_true_iff {l : List Char} {c : Char} : l.contains c = true ↔ c ∈ l := by
  simp [List.contains_iff_exists_mem_beq]

lemma wordOk_iff (s : KnowledgeState) (w : Word) :
    wordOk s w = true ↔
      greenMatch s.greenPattern w = true ∧
      (∀ c ∈ w, c ∉ s.greys) ∧
      (∀ c ∈ s.minKeys, s.minCount c ≤ w.count c) ∧
      (∀ c ∈ s.maxKeys, w.count c = s.maxCount c) ∧
      (∀ c ∈ s.yellowKeys, ∀ p ∈ s.yellowPos c, ¬ (w[p]? = some c)) := by
  rw [wordOk]
  simp only [Bool.and_eq_true, Bool.not_eq_true', List.any_eq_false, List.all_eq_true,
    decide_eq_true_eq, contains_true_iff]
  tauto

/-- Under honest feedback, an update only tightens the per-word filter. -/
lemma update_tightens (secret g : Word) (s : KnowledgeState)
    (hF : Faithful secret s) (hlen : g.length = secret.length)
    (hdash : '-' ∉ secret) (w : Word)
    (hok : wordOk (update s g (getPattern g secret)) w = true) :
    wordOk s w = true := by
  have hF' := faithful_update secret g s hF hlen hdash
  rw [wordOk_iff] at hok ⊢
  obtain ⟨hg, hgr, hmin, hmax, hyel⟩ := hok
  refine ⟨?_, ?_, ?_, ?_, ?_⟩
  · rw [greenMatch_iff] at hg ⊢
    obtain ⟨hlen', hpos⟩ := hg
    have hgl : (update s g (getPattern g secret)).greenPattern.length =
        s.greenPattern.length := by
      rw [update_green, phase1_green_length]
    refine ⟨by omega, ?_⟩
    intro i c hgi hc
    exact hpos i c (update_green_preserve secret g s hF hgi hc) hc
  · intro c hcw hcs
    exact hgr c hcw ((update_greys s g _ c).mpr (Or.inr hcs))
  · intro c hck
    exact le_trans (update_minCount_mono s g _ c)
      (hmin c ((update_minKeys s g _ c).mpr (Or.inr hck)))
  · intro c hck
    have h1 : c ∈ (update s g (getPattern g secret)).maxKeys :=
      (update_maxKeys s g _ c).mpr (Or.inr hck)
    rw [hmax c h1, hF'.maxval c h1, hF.maxval c hck]
  · intro c hck p hp
    apply hyel c _ p _
    · rw [update_yellowKeys]
      exact phase1_yellowKeys_mono _ s 0 c hck
    · rw [update_yellowPos]
      exact phase1_yellowPos_mono _ s 0 c p hp

/-! ## Claim C1: greys vs positive minCount -/

/-- C1 (amended): in an honest session — every feedback produced by the
encoder against one fixed secret word — no letter is simultaneously in
`greys` and recorded with a positive `minCount`. -/
theorem greys_minCount_disjoint_honest (secret : Word) (L : Nat) (gs : List Word)
    (hL : secret.length = L) (hdash : '-' ∉ secret)
    (hgs : ∀ g ∈ gs, g.length = L) (c : Char)
    (hc : c ∈ (runStates L secret gs).greys) :
    (runStates L secret gs).minCount c = 0 := by
  have hF := faithful_runStates secret L gs hL hdash hgs
  by_contra h
  have h1 : 0 < (runStates L secret gs).minCount c := Nat.pos_of_ne_zero h
  have h2 := hF.minsec c h1
  rw [hF.greysec c hc] at h2
  exact absurd h2 (lt_irrefl 0)

theorem greys_minCount_disjoint_honest_witness :
    'c' ∈ (runStates 2 ['a', 'b'] [['c', 'c']]).greys ∧
      (runStates 2 ['a', 'b'] [['c', 'c']]).minCount 'c' = 0 :=
  ⟨by decide,
    greys_minCount_disjoint_honest ['a', 'b'] 2 [['c', 'c']] (by decide) (by decide)
      (by decide) 'c' (by decide)⟩

/-- C1 counterexample: with arbitrary (inconsistent) feedback strings the
claimed invariant fails: after `update("a","y")` then `update("a","-")` the
letter `a` is in `greys` while `minCount a = 1 > 0`, because the code adds
a letter to `greys` without consulting its previously recorded `minCount`. -/
theorem greys_minCount_overlap_cex :
    'a' ∈ (update (update (initState 1) ['a'] ['y']) ['a'] ['-']).greys ∧
      0 < (update (update (initState 1) ['a'] ['y']) ['a'] ['-']).minCount 'a' := by
  decide

/-! ## Claim C3: monotonicity of the candidate set -/

/-- C3 (amended): in an honest session, one more update can only shrink
the filtered candidate set, for any fixed word list `D`. -/
theorem filter_monotone_honest (secret : Word) (L : Nat) (gs : List Word) (g : Word)
    (D : List Word) (hL : secret.length = L) (hdash : '-' ∉ secret)
    (hgs : ∀ x ∈ gs, x.length = L) (hg : g.length = L) :
    filterWords (honestUpdate secret (runStates L secret gs) g) D ⊆
      filterWords (runStates L secret gs) D := by
  intro w hw
  rw [filterWords, List.mem_filter] at hw ⊢
  refine ⟨hw.1, ?_⟩
  have hF := faithful_runStates secret L gs hL hdash hgs
  simp only [honestUpdate] at hw
  exact update_tightens secret g _ hF (by rw [hg, hL]) hdash w hw.2

theorem filter_monotone_honest_witness :
    filterWords (honestUpdate ['a', 'b'] (runStates 2 ['a', 'b'] [['c', 'c']]) ['a', 'a'])
        [['a', 'b'], ['b', 'a']] ⊆
      filterWords (runStates 2 ['a', 'b'] [['c', 'c']]) [['a', 'b'], ['b', 'a']] :=
  filter_monotone_honest ['a', 'b'] 2 [['c', 'c']] ['a', 'a'] [['a', 'b'], ['b', 'a']]
    (by decide) (by decide) (by decide) (by decide)

/-- C3 counterexample: with arbitrary feedback strings the candidate set
can grow across an update.  After `update("aa","g-")` the word `"ba"` is
filtered out, but after the further (inconsistent) `update("ba","gg")` it
passes the filter again. -/
theorem filter_not_monotone_cex :
    ['b', 'a'] ∈ filterWords
        (update (update (initState 2) ['a', 'a'] ['g', '-']) ['b', 'a'] ['g', 'g'])
        [['b', 'a']] ∧
      ['b', 'a'] ∉ filterWords
        (update (initState 2) ['a', 'a'] ['g', '-']) [['b', 'a']] := by
  decide

/-! ## Claim C2: incremental filtering vs recomputation from scratch -/

lemma filterWords_filterWords_of_tightens (s s' : KnowledgeState) (l : List Word)
    (h : ∀ w, wordOk s' w = true → wordOk s w = true) :
    filterWords s' (filterWords s l) = filterWords s' l := by
  rw [filterWords, filterWords, filterWords, List.filter_filter]
  apply List.filter_congr
  intro w _
  by_cases hw : wordOk s' w = true
  · simp [hw, h w hw]
  · simp only [Bool.not_eq_true] at hw
    simp [hw]

lemma runGame_chain (secret : Word) (L : Nat) (start : List Word)
    (hL : secret.length = L) (hdash : '-' ∉ secret) :
    ∀ (gs : List Word) (s : KnowledgeState) (P : List Word),
      (∀ x ∈ gs, x.length = L) → Faithful secret s →
      P = filterWords s start →
      (gs.foldl (runRound secret) (s, P)).2 =
        filterWords (gs.foldl (runRound secret) (s, P)).1 start := by
  intro gs
  induction gs with
  | nil =>
    intro s P _ _ hP
    simpa using hP
  | cons g gs ih =>
    intro s P hlen hF hP
    simp only [List.foldl_cons]
    have hstep : runRound secret (s, P) g =
        (honestUpdate secret s g, filterWords (honestUpdate secret s g) P) := rfl
    rw [hstep]
    have hglen : g.length = secret.length := by
      rw [hlen g (List.mem_cons_self _ _), hL]
    have hF' : Faithful secret (honestUpdate secret s g) :=
      faithful_update secret g s hF hglen hdash
    apply ih _ _ (fun x hx => hlen x (List.mem_cons_of_mem _ hx)) hF'
    rw [hP]
    exact filterWords_filterWords_of_tightens s (honestUpdate secret s g) start
      (fun w hw => update_tightens secret g s hF hglen hdash w hw)

/-- C2 (amended): in an honest session with at least one round, the
incrementally filtered candidate list equals the filter recomputed from
scratch on the starting dictionary with the final knowledge state.  (With
arbitrary inconsistent feedback the equality fails; see the counterexample.) -/
theorem incremental_filter_eq_scratch_honest (secret : Word) (L : Nat)
    (start : List Word) (gs : List Word) (hL : secret.length = L)
    (hdash : '-' ∉ secret) (hgs : ∀ x ∈ gs, x.length = L) (hne : gs ≠ []) :
    (runGame L secret start gs).2 =
      filterWords (runGame L secret start gs).1 start := by
  cases gs with
  | nil => exact absurd rfl hne
  | cons g rest =>
    rw [runGame]
    simp only [List.foldl_cons]
    have hstep : runRound secret (initState L, start) g =
        (honestUpdate secret (initState L) g,
          filterWords (honestUpdate secret (initState L) g) start) := rfl
    rw [hstep]
    have hglen : g.length = secret.length := by
      rw [hgs g (List.mem_cons_self _ _), hL]
    exact runGame_chain secret L start hL hdash rest _ _
      (fun x hx => hgs x (List.mem_cons_of_mem _ hx))
      (faithful_update secret g _ (faithful_init secret L hL) hglen hdash) rfl

theorem incremental_filter_eq_scratch_honest_witness :
    (runGame 2 ['a', 'b'] [['a', 'b'], ['a', 'a'], ['b', 'a']] [['a', 'a'], ['a', 'b']]).2 =
      filterWords
        (runGame 2 ['a', 'b'] [['a', 'b'], ['a', 'a'], ['b', 'a']] [['a', 'a'], ['a', 'b']]).1
        [['a', 'b'], ['a', 'a'], ['b', 'a']] :=
  incremental_filter_eq_scratch_honest ['a', 'b'] 2 [['a', 'b'], ['a', 'a'], ['b', 'a']]
    [['a', 'a'], ['a', 'b']] (by decide) (by decide) (by decide) (by decide)

/-- C2 counterexample: with arbitrary (inconsistent) feedback strings,
incrementally filtering the previous round's output differs from applying
the final knowledge state to the original dictionary: after
`update("aa","g-")` then `update("ba","gg")`, the chain is empty while the
from-scratch filter still contains `"ba"`. -/
theorem incremental_filter_ne_scratch_cex :
    filterWords
        (update (update (initState 2) ['a', 'a'] ['g', '-']) ['b', 'a'] ['g', 'g'])
        (filterWords (update (initState 2) ['a', 'a'] ['g', '-'])
          [['a', 'a'], ['b', 'a']]) ≠
      filterWords
        (update (update (initState 2) ['a', 'a'] ['g', '-']) ['b', 'a'] ['g', 'g'])
        [['a', 'a'], ['b', 'a']] := by
  decide

/-! ## Claim C4: the hard-mode validator -/

lemma isValidHardModeGuess_iff (s : KnowledgeState) (guess : Word) :
    isValidHardModeGuess s guess = true ↔
      (∀ (i : Nat) (c : Char), s.greenPattern[i]? = some c → c ≠ '-' →
        guess[i]? = some c) ∧
      (∀ c ∈ s.yellowKeys, c ∈ guess) := by
  rw [isValidHardModeGuess, Bool.and_eq_true]
  constructor
  · rintro ⟨h1, h2⟩
    constructor
    · intro i c hgi hc
      have hmem : (i, c) ∈ s.greenPattern.enum :=
        List.mk_mem_enum_iff_getElem?.mpr hgi
      have := List.all_eq_true.mp h1 (i, c) hmem
      simp at this
      rcases this with h | h
      · exact absurd h hc
      · exact h
    · intro c hc
      have := List.all_eq_true.mp h2 c hc
      exact contains_true_iff.mp this
  · rintro ⟨h1, h2⟩
    constructor
    · apply List.all_eq_true.mpr
      rintro ⟨i, c⟩ hmem
      have hgi : s.greenPattern[i]? = some c := List.mk_mem_enum_iff_getElem?.mp hmem
      by_cases hc : c = '-'
      · simp [hc]
      · simp [h1 i c hgi hc]
    · apply List.all_eq_true.mpr
      intro c hc
      exact contains_true_iff.mpr (h2 c hc)

/-- C4 (amended): in an honest session, the hard-mode validator rejects a
guess exactly when a known green position is not matched or a letter with
positive `minCount` is missing from the guess; and the verdict never
depends on the `maxCount` data.  (With arbitrary inconsistent feedback the
equivalence fails; see the counterexample.) -/
theorem hard_mode_iff_honest (secret : Word) (L : Nat) (gs : List Word) (guess : Word)
    (hL : secret.length = L) (hdash : '-' ∉ secret)
    (hgs : ∀ x ∈ gs, x.length = L) :
    (isValidHardModeGuess (runStates L secret gs) guess = false ↔
      ((∃ (i : Nat) (c : Char), (runStates L secret gs).greenPattern[i]? = some c ∧
          c ≠ '-' ∧ ¬ (guess[i]? = some c)) ∨
        (∃ c : Char, 0 < (runStates L secret gs).minCount c ∧ c ∉ guess))) ∧
    (∀ (mk : List Char) (mf : Char → Nat),
      isValidHardModeGuess
          { runStates L secret gs with maxKeys := mk, maxCount := mf } guess =
        isValidHardModeGuess (runStates L secret gs) guess) := by
  have hF := faithful_runStates secret L gs hL hdash hgs
  constructor
  · rw [Bool.eq_false_iff, Ne, isValidHardModeGuess_iff]
    constructor
    · intro h
      rcases Classical.not_and_iff_or_not_not.mp h with h | h
      · left
        push_neg at h
        obtain ⟨i, c, hgi, hc, hne⟩ := h
        exact ⟨i, c, hgi, hc, hne⟩
      · push_neg at h
        obtain ⟨c, hck, hcg⟩ := h
        right
        exact ⟨c, hF.yellowmin c hck, hcg⟩
    · intro h hval
      obtain ⟨h1, h2⟩ := hval
      rcases h with ⟨i, c, hgi, hc, hne⟩ | ⟨c, hpos, hcg⟩
      · exact hne (h1 i c hgi hc)
      · rcases hF.minval c hpos with hy | ⟨i, hgi⟩
        · exact hcg (h2 c hy)
        · have hcd : c ≠ '-' :=
            fun hcd => hdash (hcd ▸ List.count_pos_iff.mp (hF.minsec c hpos))
          exact hcg (List.getElem?_mem (h1 i c hgi hcd))
  · intro mk mf
    rfl

theorem hard_mode_iff_honest_witness :
    (isValidHardModeGuess (runStates 2 ['a', 'b'] [['a', 'a']]) ['b', 'b'] = false ↔
      ((∃ (i : Nat) (c : Char),
          (runStates 2 ['a', 'b'] [['a', 'a']]).greenPattern[i]? = some c ∧
          c ≠ '-' ∧ ¬ ((['b', 'b'] : Word)[i]? = some c)) ∨
        (∃ c : Char, 0 < (runStates 2 ['a', 'b'] [['a', 'a']]).minCount c ∧
          c ∉ (['b', 'b'] : Word)))) ∧
    (∀ (mk : List Char) (mf : Char → Nat),
      isValidHardModeGuess
          { runStates 2 ['a', 'b'] [['a', 'a']] with maxKeys := mk, maxCount := mf }
          ['b', 'b'] =
        isValidHardModeGuess (runStates 2 ['a', 'b'] [['a', 'a']]) ['b', 'b']) :=
  hard_mode_iff_honest ['a', 'b'] 2 [['a', 'a']] ['b', 'b'] (by decide) (by decide)
    (by decide)

/-- C4 counterexample: with arbitrary (inconsistent) feedback strings the
claimed equivalence fails.  After `update("aa","g-")` then
`update("ba","g-")` the letter `a` has `minCount a = 1 > 0` and does not
occur in the guess `"bb"`, yet the validator accepts `"bb"` — the code
checks only `yellow_misplaced`'s keys, not `minCount`. -/
theorem hard_mode_minCount_cex :
    isValidHardModeGuess
        (update (update (initState 2) ['a', 'a'] ['g', '-']) ['b', 'a'] ['g', '-'])
        ['b', 'b'] = true ∧
      0 < (update (update (initState 2) ['a', 'a'] ['g', '-'])
            ['b', 'a'] ['g', '-']).minCount 'a' ∧
      'a' ∉ (['b', 'b'] : Word) := by
  decide

/-! ## Claim C6: the filter's survivor condition -/

/-- C6: a word of the input list survives `_filter_words` iff it matches
every set green position (within the pattern's length, as the compiled
regex does), contains no grey letter, meets every recorded `minCount`
lower bound, matches every recorded `maxCount` exactly, and avoids every
excluded yellow position. -/
theorem filter_survivor_iff (s : KnowledgeState) (words : List Word) (w : Word)
    (hw : w ∈ words) :
    w ∈ filterWords s words ↔
      (s.greenPattern.length ≤ w.length ∧
        ∀ (i : Nat) (c : Char), s.greenPattern[i]? = some c → c ≠ '-' →
          w[i]? = some c) ∧
      (∀ c ∈ w, c ∉ s.greys) ∧
      (∀ c ∈ s.minKeys, s.minCount c ≤ w.count c) ∧
      (∀ c ∈ s.maxKeys, w.count c = s.maxCount c) ∧
      (∀ c ∈ s.yellowKeys, ∀ p ∈ s.yellowPos c, ¬ (w[p]? = some c)) := by
  rw [filterWords, List.mem_filter, wordOk_iff, greenMatch_iff]
  simp [hw]

theorem filter_survivor_iff_witness :
    ['b', 'a'] ∈ [['a', 'b'], ['b', 'a']] ∧
      ((['b', 'a'] : Word) ∈ filterWords (initState 2) [['a', 'b'], ['b', 'a']] ↔
        (((initState 2).greenPattern.length ≤ (['b', 'a'] : Word).length ∧
          ∀ (i : Nat) (c : Char), (initState 2).greenPattern[i]? = some c → c ≠ '-' →
            (['b', 'a'] : Word)[i]? = some c) ∧
        (∀ c ∈ (['b', 'a'] : Word), c ∉ (initState 2).greys) ∧
        (∀ c ∈ (initState 2).minKeys, (initState 2).minCount c ≤ (['b', 'a'] : Word).count c) ∧
        (∀ c ∈ (initState 2).maxKeys, (['b', 'a'] : Word).count c = (initState 2).maxCount c) ∧
        (∀ c ∈ (initState 2).yellowKeys, ∀ p ∈ (initState 2).yellowPos c,
          ¬ ((['b', 'a'] : Word)[p]? = some c)))) :=
  ⟨by decide, filter_survivor_iff (initState 2) [['a', 'b'], ['b', 'a']] ['b', 'a'] (by decide)⟩

/-! ## Claim C7: totality and mark counts of the encoder -/

/-- C7: for equal-length words the encoder always returns a pattern of
length exactly `L`; and when neither word repeats a letter, the EXACT,
PRESENT and ABSENT counts sum to `L` while the EXACT count equals the
number of positions where the two words agree. -/
theorem pattern_encoder_total (guess answer : Word) (L : Nat)
    (hg : guess.length = L) (ha : answer.length = L) :
    (getPattern guess answer).length = L ∧
    (guess.Nodup → answer.Nodup →
      (getPattern guess answer).count 'g' + (getPattern guess answer).count 'y' +
          (getPattern guess answer).count '-' = L ∧
        (getPattern guess answer).count 'g' =
          (guess.zip answer).countP (fun q => decide (q.1 = q.2))) := by
  have hlen : (getPattern guess answer).length = L := by
    rw [getPattern_length, hg, ha, Nat.min_self]
  refine ⟨hlen, fun _ _ => ⟨?_, getPattern_count_green guess answer⟩⟩
  rw [← hlen]
  apply count_three_partition
  intro m hm
  exact pass2_marks_mem answer _ _ m hm (pass1_marks guess answer)

theorem pattern_encoder_total_witness :
    (getPattern ['c', 'r', 'a', 'n', 'e'] ['s', 'l', 'a', 't', 'e']).length = 5 ∧
      ((getPattern ['c', 'r', 'a', 'n', 'e'] ['s', 'l', 'a', 't', 'e']).count 'g' +
          (getPattern ['c', 'r', 'a', 'n', 'e'] ['s', 'l', 'a', 't', 'e']).count 'y' +
          (getPattern ['c', 'r', 'a', 'n', 'e'] ['s', 'l', 'a', 't', 'e']).count '-' = 5 ∧
        (getPattern ['c', 'r', 'a', 'n', 'e'] ['s', 'l', 'a', 't', 'e']).count 'g' =
          ((['c', 'r', 'a', 'n', 'e'] : Word).zip ['s', 'l', 'a', 't', 'e']).countP
            (fun q => decide (q.1 = q.2))) := by
  obtain ⟨h1, h2⟩ := pattern_encoder_total ['c', 'r', 'a', 'n', 'e']
    ['s', 'l', 'a', 't', 'e'] 5 (by decide) (by decide)
  exact ⟨h1, h2 (by decide) (by decide)⟩

/-! ## Claim C9: `none` exactly on an empty candidate set -/

/-- C9: for both strategies, the selector returns `none` if and only if
the candidate list is empty, so an absent recommendation is representable
and distinct from every concrete recommendation. -/
theorem select_none_iff_no_candidates (possible allWords : List Word) (L : Nat) :
    (findBestGuessFrequency possible = none ↔ possible = []) ∧
    (findBestGuessMinimax possible allWords L = none ↔ possible = []) := by
  constructor
  · cases possible with
    | nil => simp [findBestGuessFrequency]
    | cons a t =>
      cases t with
      | nil => simp [findBestGuessFrequency]
      | cons b t' => simp [findBestGuessFrequency]
  · cases possible with
    | nil => simp [findBestGuessMinimax]
    | cons a t =>
      cases t with
      | nil => simp [findBestGuessMinimax]
      | cons b t' => simp [findBestGuessMinimax]

/-! ## Claim C8: the frequency strategy -/

lemma exists_first_max (f : Word → Nat) :
    ∀ (l : List Word), l ≠ [] →
      ∃ (i : Nat) (w : Word), l[i]? = some w ∧ (∀ v ∈ l, f v ≤ f w) ∧
        (∀ (j : Nat) (v : Word), j < i → l[j]? = some v → f v < f w) := by
  intro l
  induction l with
  | nil => intro h; exact absurd rfl h
  | cons x xs ih =>
    intro _
    cases xs with
    | nil =>
      refine ⟨0, x, by simp, ?_, ?_⟩
      · intro v hv
        obtain rfl : v = x := by simpa using hv
        exact Nat.le_refl _
      · intro j v hj _
        omega
    | cons y ys =>
      obtain ⟨i, w, hi, hmax, hfirst⟩ := ih (by simp)
      by_cases hx : f w ≤ f x
      · refine ⟨0, x, by simp, ?_, ?_⟩
        · intro v hv
          rcases List.mem_cons.mp hv with rfl | hv
          · exact Nat.le_refl _
          · exact le_trans (hmax v hv) hx
        · intro j v hj _
          omega
      · refine ⟨i + 1, w, by simpa using hi, ?_, ?_⟩
        · intro v hv
          rcases List.mem_cons.mp hv with rfl | hv
          · omega
          · exact hmax v hv
        · intro j v hj hjv
          cases j with
          | zero =>
            obtain rfl : x = v := by simpa using hjv
            omega
          | succ n => exact hfirst n v (by omega) (by simpa using hjv)

lemma freqFold_const (P : List Word) :
    ∀ (pool : List Word) (best : Word) (ms : Int),
      (∀ w ∈ pool, (freqScore P w : Int) ≤ ms) →
      freqFold P pool best ms = best := by
  intro pool
  induction pool with
  | nil => intro best ms _; rfl
  | cons w rest ih =>
    intro best ms h
    rw [freqFold]
    rw [if_neg (by have := h w (List.mem_cons_self _ _); omega)]
    exact ih best ms (fun v hv => h v (List.mem_cons_of_mem _ hv))

lemma freqFold_first (P : List Word) :
    ∀ (pool : List Word) (best : Word) (ms : Int) (i : Nat) (w : Word),
      pool[i]? = some w → ms < (freqScore P w : Int) →
      (∀ v ∈ pool, freqScore P v ≤ freqScore P w) →
      (∀ (j : Nat) (v : Word), j < i → pool[j]? = some v →
        freqScore P v < freqScore P w) →
      freqFold P pool best ms = w := by
  intro pool
  induction pool with
  | nil => intro best ms i w h _ _ _; simp at h
  | cons x rest ih =>
    intro best ms i w hi hms hmax hfirst
    cases i with
    | zero =>
      obtain rfl : x = w := by simpa using hi
      rw [freqFold, if_pos hms]
      apply freqFold_const
      intro v hv
      have := hmax v (List.mem_cons_of_mem _ hv)
      omega
    | succ n =>
      have hx : freqScore P x < freqScore P w := hfirst 0 x (by omega) (by simp)
      rw [freqFold]
      by_cases hcond : ms < (freqScore P x : Int)
      · rw [if_pos hcond]
        exact ih x (freqScore P x) n w (by simpa using hi) (by exact_mod_cast hx)
          (fun v hv => hmax v (List.mem_cons_of_mem _ hv))
          (fun j v hj hjv => hfirst (j + 1) v (by omega) (by simpa using hjv))
      · rw [if_neg hcond]
        exact ih best ms n w (by simpa using hi) hms
          (fun v hv => hmax v (List.mem_cons_of_mem _ hv))
          (fun j v hj hjv => hfirst (j + 1) v (by omega) (by simpa using hjv))

/-- C8: for a non-empty candidate list the frequency strategy returns the
candidate with maximal distinct-letter frequency score, and among the
candidates attaining that score, the first one in input order. -/
theorem frequency_selects_first_max (possible : List Word) (hne : possible ≠ []) :
    ∃ w, findBestGuessFrequency possible = some w ∧ w ∈ possible ∧
      (∀ v ∈ possible, freqScore possible v ≤ freqScore possible w) ∧
      ∃ i : Nat, possible[i]? = some w ∧
        ∀ (j : Nat) (v : Word), j < i → possible[j]? = some v →
          freqScore possible v < freqScore possible w := by
  cases possible with
  | nil => exact absurd rfl hne
  | cons a t =>
    cases t with
    | nil =>
      refine ⟨a, rfl, by simp, ?_, 0, by simp, ?_⟩
      · intro v hv
        obtain rfl : v = a := by simpa using hv
        exact Nat.le_refl _
      · intro j v hj _
        omega
    | cons b t' =>
      obtain ⟨i, w, hi, hmax, hfirst⟩ :=
        exists_first_max (freqScore (a :: b :: t')) (a :: b :: t') (by simp)
      refine ⟨w, ?_, List.getElem?_mem hi, hmax, i, hi, hfirst⟩
      show some (freqFold (a :: b :: t') (a :: b :: t') [] (-1)) = some w
      congr 1
      exact freqFold_first (a :: b :: t') (a :: b :: t') [] (-1) i w hi (by omega)
        hmax hfirst

theorem frequency_selects_first_max_witness :
    ∃ w, findBestGuessFrequency [['a', 'b'], ['a', 'c']] = some w ∧
      w ∈ [['a', 'b'], ['a', 'c']] ∧
      (∀ v ∈ [['a', 'b'], ['a', 'c']],
        freqScore [['a', 'b'], ['a', 'c']] v ≤ freqScore [['a', 'b'], ['a', 'c']] w) ∧
      ∃ i : Nat, [['a', 'b'], ['a', 'c']][i]? = some w ∧
        ∀ (j : Nat) (v : Word), j < i → [['a', 'b'], ['a', 'c']][j]? = some v →
          freqScore [['a', 'b'], ['a', 'c']] v < freqScore [['a', 'b'], ['a', 'c']] w :=
  frequency_selects_first_max [['a', 'b'], ['a', 'c']] (by decide)

/-! ## Claim C5: the minimax strategy -/

lemma mmFold_cons_skip (possible : List Word) (L : Nat) (g : Word) (rest : List Word)
    (best : Word) (m : Option Nat) (hgl : g.length ≠ L) :
    mmFold possible L (g :: rest) best m = mmFold possible L rest best m := by
  rw [mmFold, if_pos (by simpa using hgl)]

lemma mmFold_cons_none (possible : List Word) (L : Nat) (g : Word) (rest : List Word)
    (init : Word) (hgl : g.length = L) :
    mmFold possible L (g :: rest) init none =
      mmFold possible L rest g (some (worstCase possible g)) := by
  rw [mmFold, if_neg (by simp [hgl])]

lemma mmFold_cons_some (possible : List Word) (L : Nat) (g : Word) (rest : List Word)
    (best : Word) (mv : Nat) (hgl : g.length = L) :
    mmFold possible L (g :: rest) best (some mv) =
      if worstCase possible g < mv then
        mmFold possible L rest g (some (worstCase possible g))
      else if worstCase possible g = mv ∧ g ∈ possible ∧ best ∉ possible then
        mmFold possible L rest g (some mv)
      else mmFold possible L rest best (some mv) := by
  rw [mmFold, if_neg (by simp [hgl])]

lemma mmFold_some (possible : List Word) (L : Nat) :
    ∀ (pool : List Word) (best : Word) (mv : Nat),
      worstCase possible best = mv → best.length = L →
      ∃ b mv', mmFold possible L pool best (some mv) = (b, some mv') ∧
        worstCase possible b = mv' ∧ b.length = L ∧ (b = best ∨ b ∈ pool) ∧ mv' ≤ mv ∧
        (∀ w ∈ pool, w.length = L → mv' ≤ worstCase possible w) ∧
        ((best ∈ possible ∧ mv' = mv) → b ∈ possible) ∧
        (∀ w ∈ pool, w.length = L → w ∈ possible → worstCase possible w = mv' →
          b ∈ possible) := by
  intro pool
  induction pool with
  | nil =>
    intro best mv hbw hbl
    exact ⟨best, mv, rfl, hbw, hbl, Or.inl rfl, Nat.le_refl _, by simp,
      fun h => h.1, by simp⟩
  | cons g rest ih =>
    intro best mv hbw hbl
    by_cases hgl : g.length = L
    · rw [mmFold_cons_some possible L g rest best mv hgl]
      by_cases hlt : worstCase possible g < mv
      · rw [if_pos hlt]
        obtain ⟨b, mv', heq, hwb, hbl', hmem, hle, hmin, hT, htie⟩ :=
          ih g (worstCase possible g) rfl hgl
        refine ⟨b, mv', heq, hwb, hbl', ?_, by omega, ?_, ?_, ?_⟩
        · rcases hmem with rfl | h
          · exact Or.inr (List.mem_cons_self _ _)
          · exact Or.inr (List.mem_cons_of_mem _ h)
        · intro w hw hwl
          rcases List.mem_cons.mp hw with rfl | hw'
          · exact hle
          · exact hmin w hw' hwl
        · rintro ⟨_, hmv⟩
          omega
        · intro w hw hwl hwp hwv
          rcases List.mem_cons.mp hw with rfl | hw'
          · exact hT ⟨hwp, hwv.symm⟩
          · exact htie w hw' hwl hwp hwv
      · rw [if_neg hlt]
        by_cases htb : worstCase possible g = mv ∧ g ∈ possible ∧ best ∉ possible
        · rw [if_pos htb]
          obtain ⟨b, mv', heq, hwb, hbl', hmem, hle, hmin, hT, htie⟩ :=
            ih g mv htb.1 hgl
          refine ⟨b, mv', heq, hwb, hbl', ?_, hle, ?_, ?_, ?_⟩
          · rcases hmem with rfl | h
            · exact Or.inr (List.mem_cons_self _ _)
            · exact Or.inr (List.mem_cons_of_mem _ h)
          · intro w hw hwl
            rcases List.mem_cons.mp hw with rfl | hw'
            · omega
            · exact hmin w hw' hwl
          · rintro ⟨hbp, _⟩
            exact absurd hbp htb.2.2
          · intro w hw hwl hwp hwv
            rcases List.mem_cons.mp hw with rfl | hw'
            · exact hT ⟨hwp, by omega⟩
            · exact htie w hw' hwl hwp hwv
        · rw [if_neg htb]
          obtain ⟨b, mv', heq, hwb, hbl', hmem, hle, hmin, hT, htie⟩ :=
            ih best mv hbw hbl
          refine ⟨b, mv', heq, hwb, hbl', ?_, hle, ?_, hT, ?_⟩
          · rcases hmem with rfl | h
            · exact Or.inl rfl
            · exact Or.inr (List.mem_cons_of_mem _ h)
          · intro w hw hwl
            rcases List.mem_cons.mp hw with rfl | hw'
            · omega
            · exact hmin w hw' hwl
          · intro w hw hwl hwp hwv
            rcases List.mem_cons.mp hw with rfl | hw'
            · have hmr : worstCase possible w = mv := by omega
              have hbp : best ∈ possible := by
                by_contra hbp
                exact htb ⟨hmr, hwp, hbp⟩
              exact hT ⟨hbp, by omega⟩
            · exact htie w hw' hwl hwp hwv
    · rw [mmFold_cons_skip possible L g rest best (some mv) hgl]
      obtain ⟨b, mv', heq, hwb, hbl', hmem, hle, hmin, hT, htie⟩ := ih best mv hbw hbl
      refine ⟨b, mv', heq, hwb, hbl', ?_, hle, ?_, hT, ?_⟩
      · rcases hmem with rfl | h
        · exact Or.inl rfl
        · exact Or.inr (List.mem_cons_of_mem _ h)
      · intro w hw hwl
        rcases List.mem_cons.mp hw with rfl | hw'
        · exact absurd hwl hgl
        · exact hmin w hw' hwl
      · intro w hw hwl hwp hwv
        rcases List.mem_cons.mp hw with rfl | hw'
        · exact absurd hwl hgl
        · exact htie w hw' hwl hwp hwv

lemma mmFold_none (possible : List Word) (L : Nat) :
    ∀ (pool : List Word) (init : Word),
      (∃ g ∈ pool, g.length = L) →
      ∃ b mv', mmFold possible L pool init none = (b, some mv') ∧
        worstCase possible b = mv' ∧ b.length = L ∧ b ∈ pool ∧
        (∀ w ∈ pool, w.length = L → mv' ≤ worstCase possible w) ∧
        (∀ w ∈ pool, w.length = L → w ∈ possible → worstCase possible w = mv' →
          b ∈ possible) := by
  intro pool
  induction pool with
  | nil =>
    rintro init ⟨g, hg, _⟩
    simp at hg
  | cons g rest ih =>
    intro init hex
    by_cases hgl : g.length = L
    · rw [mmFold_cons_none possible L g rest init hgl]
      obtain ⟨b, mv', heq, hwb, hbl, hmem, hle, hmin, hT, htie⟩ :=
        mmFold_some possible L rest g (worstCase possible g) rfl hgl
      refine ⟨b, mv', heq, hwb, hbl, ?_, ?_, ?_⟩
      · rcases hmem with rfl | h
        · exact List.mem_cons_self _ _
        · exact List.mem_cons_of_mem _ h
      · intro w hw hwl
        rcases List.mem_cons.mp hw with rfl | hw'
        · exact hle
        · exact hmin w hw' hwl
      · intro w hw hwl hwp hwv
        rcases List.mem_cons.mp hw with rfl | hw'
        · exact hT ⟨hwp, hwv.symm⟩
        · exact htie w hw' hwl hwp hwv
    · rw [mmFold_cons_skip possible L g rest init none hgl]
      have hex' : ∃ g' ∈ rest, g'.length = L := by
        obtain ⟨g', hg', hgl'⟩ := hex
        rcases List.mem_cons.mp hg' with rfl | h
        · exact absurd hgl' hgl
        · exact ⟨g', h, hgl'⟩
      obtain ⟨b, mv', heq, hwb, hbl, hmem, hmin, htie⟩ := ih init hex'
      refine ⟨b, mv', heq, hwb, hbl, List.mem_cons_of_mem _ hmem, ?_, ?_⟩
      · intro w hw hwl
        rcases List.mem_cons.mp hw with rfl | hw'
        · exact absurd hwl hgl
        · exact hmin w hw' hwl
      · intro w hw hwl hwp hwv
        rcases List.mem_cons.mp hw with rfl | hw'
        · exact absurd hwl hgl
        · exact htie w hw' hwl hwp hwv

/-- C5: the minimax strategy returns a guess whose worst-case partition
bucket over the surviving candidates is minimal among all length-`L` words
of the evaluated pool (the whole dictionary when more than two candidates
survive, otherwise the candidate set itself); and when some pool word
achieving the minimum is itself a surviving candidate, the returned guess
is a surviving candidate. -/
theorem minimax_minimizes_worst_case (possible allWords : List Word) (L : Nat)
    (hne : possible ≠ []) (hlen : ∀ w ∈ possible, w.length = L)
    (hsub : ∀ w ∈ possible, w ∈ allWords) :
    ∃ g, findBestGuessMinimax possible allWords L = some g ∧
      g ∈ (if 2 < possible.length then allWords else possible) ∧ g.length = L ∧
      (∀ w ∈ (if 2 < possible.length then allWords else possible), w.length = L →
        worstCase possible g ≤ worstCase possible w) ∧
      ((∃ w ∈ (if 2 < possible.length then allWords else possible),
          w.length = L ∧ w ∈ possible ∧
          (∀ v ∈ (if 2 < possible.length then allWords else possible), v.length = L →
            worstCase possible w ≤ worstCase possible v)) →
        g ∈ possible) := by
  cases possible with
  | nil => exact absurd rfl hne
  | cons a t =>
    cases t with
    | nil =>
      have hpool : (if 2 < ([a] : List Word).length then allWords else [a]) = [a] := by
        simp
      refine ⟨a, rfl, ?_, hlen a (List.mem_cons_self _ _), ?_, ?_⟩
      · rw [hpool]
        exact List.mem_cons_self _ _
      · intro w hw hwl
        rw [hpool] at hw
        obtain rfl : w = a := by simpa using hw
        exact Nat.le_refl _
      · intro _
        exact List.mem_cons_self _ _
    | cons b t' =>
      have hapool : a ∈ (if 2 < (a :: b :: t').length then allWords else a :: b :: t') := by
        split
        · exact hsub a (List.mem_cons_self _ _)
        · exact List.mem_cons_self _ _
      obtain ⟨bb, mv', heq, hwb, hbl, hmem, hmin, htie⟩ :=
        mmFold_none (a :: b :: t') L
          (if 2 < (a :: b :: t').length then allWords else a :: b :: t') []
          ⟨a, hapool, hlen a (List.mem_cons_self _ _)⟩
      refine ⟨bb, ?_, hmem, hbl, ?_, ?_⟩
      · show some (mmFold (a :: b :: t') L
          (if 2 < (a :: b :: t').length then allWords else a :: b :: t') [] none).1 =
          some bb
        rw [heq]
      · intro w hw hwl
        rw [hwb]
        exact hmin w hw hwl
      · rintro ⟨w, hw, hwl, hwp, hwbest⟩
        have h1 : mv' ≤ worstCase (a :: b :: t') w := hmin w hw hwl
        have h2 : worstCase (a :: b :: t') w ≤ mv' := by
          rw [← hwb]
          exact hwbest bb hmem hbl
        exact htie w hw hwl hwp (by omega)

theorem minimax_minimizes_worst_case_witness :
    ∃ g, findBestGuessMinimax [['a', 'b'], ['a', 'c']]
        [['a', 'b'], ['a', 'c'], ['b', 'c']] 2 = some g ∧
      g ∈ (if 2 < ([['a', 'b'], ['a', 'c']] : List Word).length then
        [['a', 'b'], ['a', 'c'], ['b', 'c']] else [['a', 'b'], ['a', 'c']]) ∧
      g.length = 2 ∧
      (∀ w ∈ (if 2 < ([['a', 'b'], ['a', 'c']] : List Word).length then
          [['a', 'b'], ['a', 'c'], ['b', 'c']] else [['a', 'b'], ['a', 'c']]),
        w.length = 2 →
        worstCase [['a', 'b'], ['a', 'c']] g ≤ worstCase [['a', 'b'], ['a', 'c']] w) ∧
      ((∃ w ∈ (if 2 < ([['a', 'b'], ['a', 'c']] : List Word).length then
          [['a', 'b'], ['a', 'c'], ['b', 'c']] else [['a', 'b'], ['a', 'c']]),
          w.length = 2 ∧ w ∈ [['a', 'b'], ['a', 'c']] ∧
          (∀ v ∈ (if 2 < ([['a', 'b'], ['a', 'c']] : List Word).length then
            [['a', 'b'], ['a', 'c'], ['b', 'c']] else [['a', 'b'], ['a', 'c']]),
            v.length = 2 →
            worstCase [['a', 'b'], ['a', 'c']] w ≤ worstCase [['a', 'b'], ['a', 'c']] v)) →
        g ∈ [['a', 'b'], ['a', 'c']]) :=
  minimax_minimizes_worst_case [['a', 'b'], ['a', 'c']]
    [['a', 'b'], ['a', 'c'], ['b', 'c']] 2 (by decide) (by decide) (by decide)

/-! ## Claim C10: `sim.check_guess` agrees with `WordleSolver._get_pattern` -/

/-- Unconsumed occurrences of `c` in the answer, counted over the
`used_in_answer` array. -/
def freeCount (a : Word) (used : List Bool) (c : Char) : Nat :=
  (a.zip used).countP (fun q => decide (q.1 = c ∧ q.2 = false))

lemma freeCount_pos_iff (a : Word) (used : List Bool) (c : Char) :
    0 < freeCount a used c ↔ freeFor a used c := by
  rw [freeCount, List.countP_pos_iff]
  constructor
  · rintro ⟨q, hq, hp⟩
    obtain ⟨hq1, hq2⟩ : q.1 = c ∧ q.2 = false := by simpa using hp
    obtain ⟨i, hi⟩ := List.mem_iff_getElem?.mp hq
    obtain ⟨h1, h2⟩ := List.getElem?_zip_eq_some.mp hi
    exact ⟨i, by rw [← hq1]; exact h1, by rw [← hq2]; exact h2⟩
  · rintro ⟨j, h1, h2⟩
    exact ⟨(c, false), List.getElem?_mem (List.getElem?_zip_eq_some.mpr ⟨h1, h2⟩), by simp⟩

lemma freeCount_set (c : Char) (a : Word) :
    ∀ (used : List Bool) (j : Nat) (gc : Char),
      a[j]? = some gc → used[j]? = some false →
      freeCount a used c =
        freeCount a (used.set j true) c + (if gc = c then 1 else 0) := by
  induction a with
  | nil => intro used j gc ha _; simp at ha
  | cons x xs ih =>
    intro used j gc ha hu
    cases used with
    | nil => simp at hu
    | cons u us =>
      cases j with
      | zero =>
        simp at ha hu
        subst hu
        simp only [List.set_cons_zero, freeCount, List.zip_cons_cons, List.countP_cons]
        rw [← ha]
        by_cases hx : x = c <;> simp [hx]
      | succ n =>
        simp at ha hu
        have h' := ih us n gc ha hu
        simp only [freeCount] at h'
        simp only [List.set_cons_succ, freeCount, List.zip_cons_cons, List.countP_cons]
        omega

lemma removeFirst_count_self (c : Char) :
    ∀ (sl : List (Option Char)), some c ∈ sl →
      (removeFirst sl c).count (some c) + 1 = sl.count (some c) := by
  intro sl
  induction sl with
  | nil => intro h; simp at h
  | cons x xs ih =>
    intro h
    by_cases hx : x = some c
    · rw [removeFirst, if_pos hx, List.count_cons]
      simp [hx]
    · rw [removeFirst, if_neg hx, List.count_cons, List.count_cons]
      have hmem : some c ∈ xs := by
        rcases List.mem_cons.mp h with h' | h'
        · exact absurd h'.symm hx
        · exact h'
      have ht := ih hmem
      have hne : (x == some c) = false := by simpa using hx
      rw [hne]
      omega

lemma removeFirst_count_other (c : Char) (x : Option Char) (hx : x ≠ some c) :
    ∀ (sl : List (Option Char)), (removeFirst sl c).count x = sl.count x := by
  intro sl
  induction sl with
  | nil => rfl
  | cons y ys ih =>
    by_cases hy : y = some c
    · rw [removeFirst, if_pos hy, List.count_cons]
      have hb : (y == x) = false := by
        subst hy
        simpa using fun hcx => hx hcx.symm
      rw [hb]
      simp
    · rw [removeFirst, if_neg hy, List.count_cons, List.count_cons, ih]

/-- The positional relation between `sim.py`'s result slots and the
solver's pass-1 marks. -/
def MarkRel : Option SimMark → Char → Prop := fun m p =>
  (m = some SimMark.green ∧ p = 'g') ∨ (m = none ∧ p = '-')

lemma sim_init_marks (g : Word) :
    ∀ (a : Word), List.Forall₂ MarkRel (simPass1 g a).1 (pass1 g a) := by
  induction g with
  | nil => intro a; simp [simPass1, pass1]
  | cons x xs ih =>
    intro a
    cases a with
    | nil => simp [simPass1, pass1]
    | cons y ys =>
      simp only [simPass1, pass1, List.zipWith_cons_cons]
      refine List.Forall₂.cons ?_ ?_
      · by_cases hxy : x = y <;> simp [MarkRel, hxy]
      · exact ih ys

lemma sim_init_inv (g : Word) :
    ∀ (a : Word) (c : Char),
      ((simPass1 g a).2).count (some c) = freeCount a (initUsed g a) c := by
  induction g with
  | nil => intro a c; simp [simPass1, freeCount, initUsed]
  | cons x xs ih =>
    intro a c
    cases a with
    | nil => simp [simPass1, freeCount, initUsed]
    | cons y ys =>
      simp only [simPass1, initUsed, freeCount, pass1, List.zipWith_cons_cons,
        List.zip_cons_cons, List.countP_cons, List.count_cons]
      have ht := ih ys c
      simp only [simPass1, initUsed, freeCount] at ht
      rw [ht]
      by_cases hxy : x = y
      · simp [hxy]
      · by_cases hyc : y = c <;> simp [hxy, hyc]

lemma simPass2_agrees (a : Word) (ms : List (Option SimMark)) (pat : Pattern)
    (hrel : List.Forall₂ MarkRel ms pat) :
    ∀ (gcs : Word) (sl : List (Option Char)) (used : List Bool),
      ms.length ≤ gcs.length →
      (∀ c : Char, sl.count (some c) = freeCount a used c) →
      ((simPass2 ms gcs sl).1).map (fun m => simMarkChar (m.getD SimMark.grey)) =
        (pass2 a (pat.zip gcs) used).1 := by
  induction hrel with
  | nil =>
    intro gcs sl used _ _
    simp [simPass2, pass2]
  | @cons m p ms' pat' hmp htail ih =>
    intro gcs sl used hlen hinv
    cases gcs with
    | nil => simp at hlen
    | cons c cs =>
      have hlen' : ms'.length ≤ cs.length := by simpa using hlen
      rcases hmp with ⟨rfl, rfl⟩ | ⟨rfl, rfl⟩
      · have hgd : (('g' : Char) = '-') = False := by decide
        simp only [simPass2, List.zip_cons_cons, pass2, hgd, if_false, List.map_cons]
        rw [ih cs sl used hlen' hinv]
        rfl
      · have hdd : (('-' : Char) = '-') = True := by decide
        by_cases hmem : some c ∈ sl
        · have hcount : 0 < sl.count (some c) := List.count_pos_iff.mpr hmem
          have hfree : 0 < freeCount a used c := by rw [← hinv c]; exact hcount
          have hfor : freeFor a used c := (freeCount_pos_iff a used c).mp hfree
          obtain ⟨j, haj, huj⟩ := hfor
          have hsome := findUnused_isSome a used c j haj huj
          obtain ⟨j', hj'⟩ := Option.isSome_iff_exists.mp hsome
          obtain ⟨haj', huj'⟩ := findUnused_some a used c j' hj'
          have hinv' : ∀ c' : Char,
              (removeFirst sl c).count (some c') = freeCount a (used.set j' true) c' := by
            intro c'
            by_cases hc' : c' = c
            · subst hc'
              have h1 := removeFirst_count_self c' sl hmem
              have h2 := freeCount_set c' a used j' c' haj' huj'
              have h3 := hinv c'
              rw [if_pos rfl] at h2
              omega
            · have h1 := removeFirst_count_other c (some c') (by simp [hc']) sl
              have h2 := freeCount_set c' a used j' c haj' huj'
              have h3 := hinv c'
              rw [if_neg (fun h => hc' h.symm)] at h2
              omega
          simp only [simPass2, if_pos hmem, List.zip_cons_cons, pass2, hdd, if_true,
            hj', List.map_cons]
          rw [ih cs (removeFirst sl c) (used.set j' true) hlen' hinv']
          rfl
        · have hcount : sl.count (some c) = 0 := List.count_eq_zero.mpr hmem
          have hfree : freeCount a used c = 0 := by rw [← hinv c]; exact hcount
          have hnfor : ¬ freeFor a used c := by
            rw [← freeCount_pos_iff]
            omega
          have hnone : findUnused a used c = none := by
            cases hfu : findUnused a used c with
            | none => rfl
            | some j =>
              obtain ⟨haj, huj⟩ := findUnused_some a used c j hfu
              exact absurd ⟨j, haj, huj⟩ hnfor
          simp only [simPass2, if_neg hmem, List.zip_cons_cons, pass2, hdd, if_true,
            hnone, List.map_cons]
          rw [ih cs sl used hlen' hinv]
          rfl

/-- C10: for equal-length words, `sim.check_guess` computes, position by
position, the same pattern as `WordleSolver._get_pattern`, under the
renaming green square to `'g'`, yellow square to `'y'`, white square to `'-'`. -/
theorem sim_check_guess_agrees (guess answer : Word)
    (h : guess.length = answer.length) :
    (checkGuess guess answer).map simMarkChar = getPattern guess answer := by
  rw [checkGuess]
  rw [List.map_map]
  exact simPass2_agrees answer (simPass1 guess answer).1 (pass1 guess answer)
    (sim_init_marks guess answer) guess (simPass1 guess answer).2
    (initUsed guess answer) (by simp [simPass1]) (sim_init_inv guess answer)

theorem sim_check_guess_agrees_witness :
    (checkGuess ['s', 'p', 'e', 'e', 'd'] ['e', 'r', 'a', 's', 'e']).map simMarkChar =
      getPattern ['s', 'p', 'e', 'e', 'd'] ['e', 'r', 'a', 's', 'e'] :=
  sim_check_guess_agrees ['s', 'p', 'e', 'e', 'd'] ['e', 'r', 'a', 's', 'e'] (by decide)

end Wordler
